import Mathlib

/-!
Orchids-2api: the API-key gateway and the persistent store.

A shallow embedding of `internal/middleware/apikey.go` and
`internal/store/store.go`.

Modelling conventions.

* Go strings are Lean `String`s (sequences of code points); the functions of
  package `strings` used by the middleware work on the code-point list, and
  `[]byte(s)` is the UTF-8 encoding.
* `http.Header` is an association list from canonical header names to the
  list of values received under that name.
* `sha256.Sum256` and `hex.EncodeToString` are written out after FIPS 180-4,
  with 32-bit words as natural numbers reduced modulo `2 ^ 32`.
* SQL tables are lists of rows in insertion order. Each method of the store
  takes the database, the reading of the clock where the statement uses
  `CURRENT_TIMESTAMP`, and the outcome of the medium for each statement it
  executes; it returns its Go results and the database after the call.
* The middleware returns, next to its result, the list of calls it made to
  the store and to the protected handler.
-/

namespace strings

/-- Go `unicode.IsSpace`: the code points with the White_Space property. -/
def isSpace (r : Char) : Bool :=
  let c := r.toNat
  (9 ≤ c && c ≤ 13) || c == 32 || c == 0x85 || c == 0xA0 || c == 0x1680 ||
    (0x2000 ≤ c && c ≤ 0x200A) || c == 0x2028 || c == 0x2029 || c == 0x202F ||
    c == 0x205F || c == 0x3000

/-- Go `strings.TrimSpace`: all leading and trailing white space removed. -/
def TrimSpace (s : String) : String :=
  ⟨((s.data.dropWhile isSpace).reverse.dropWhile isSpace).reverse⟩

/-- Go `strings.HasPrefix(s, pre)`. -/
def HasPrefix (s pre : String) : Bool :=
  pre.data.isPrefixOf s.data

/-- Go `strings.TrimPrefix(s, pre)`: `s` without the leading `pre`, or `s`
itself when `s` does not start with `pre`. -/
def TrimPrefix (s pre : String) : String :=
  if HasPrefix s pre then ⟨s.data.drop pre.data.length⟩ else s

end strings

namespace textproto

/-- Go `validHeaderFieldByte`: the token characters of RFC 7230. -/
def validHeaderFieldByte (c : Char) : Bool :=
  c.isAlphanum || "!#$%&*+-.^_|~".data.contains c ||
    c == Char.ofNat 39 || c == Char.ofNat 96

/-- The canonicalisation loop: upper case at the start and after each dash,
lower case elsewhere. -/
def canonLoop : Bool → List Char → List Char
  | _, [] => []
  | upper, c :: cs =>
    let c1 := if upper && c.isLower then c.toUpper
              else if !upper && c.isUpper then c.toLower else c
    c1 :: canonLoop (c1 == '-') cs

/-- Go `textproto.CanonicalMIMEHeaderKey`: a key made of token characters is
put in canonical form, any other key is returned unchanged. -/
def CanonicalMIMEHeaderKey (s : String) : String :=
  if s.data.all validHeaderFieldByte then ⟨canonLoop true s.data⟩ else s

end textproto

namespace http

/-- Go `http.Header`: canonical header name to the values received. -/
abbrev Header := List (String × List String)

/-- Go `Header.Get`: the first value stored under the canonical form of
`key`, or the empty string. -/
def Header.Get (h : Header) (key : String) : String :=
  match h.lookup (textproto.CanonicalMIMEHeaderKey key) with
  | some (v :: _) => v
  | _ => ""

/-- Go `Header.Set`: the values under the canonical form of `key` are
replaced by the single value `value`. -/
def Header.Set (h : Header) (key value : String) : Header :=
  let k := textproto.CanonicalMIMEHeaderKey key
  (k, [value]) :: h.filter (fun kv => kv.1 != k)

/-- The part of `http.Request` read by the middleware. -/
structure Request where
  Header : Header
  deriving DecidableEq, Repr

end http

namespace middleware

open strings

/-- The function `extractApiKey` of `apikey.go`. -/
def extractApiKey (r : http.Request) : String :=
  let key := TrimSpace (r.Header.Get "x-api-key")
  if key != "" then key
  else
    let auth := TrimSpace (r.Header.Get "Authorization")
    if HasPrefix auth "Bearer " then TrimSpace (TrimPrefix auth "Bearer ")
    else ""

end middleware

namespace sha256

/-- The first 64 primes. -/
def primes : List Nat :=
  [2, 3, 5, 7, 11, 13, 17, 19, 23, 29, 31, 37, 41, 43, 47, 53, 59, 61, 67, 71, 73, 79, 83, 89,
   97, 101, 103, 107, 109, 113, 127, 131, 137, 139, 149, 151, 157, 163, 167, 173, 179, 181,
   191, 193, 197, 199, 211, 223, 227, 229, 233, 239, 241, 251, 257, 263, 269, 271, 277, 281,
   283, 293, 307, 311]

/-- Bisection for the integer `k`-th root of `x`: the root lies in
`[lo, lo + 2 ^ bits)`. -/
def rootFrom (k x : Nat) : Nat → Nat → Nat
  | 0, lo => lo
  | bits + 1, lo =>
    let mid := lo + 2 ^ bits
    if mid ^ k ≤ x then rootFrom k x bits mid else rootFrom k x bits lo

/-- The round constants: the first 32 bits of the fractional parts of the
cube roots of the first 64 primes. -/
def K : List Nat :=
  primes.map fun p => rootFrom 3 (p * 2 ^ 96) 40 0 % 2 ^ 32

/-- The initial hash value: the first 32 bits of the fractional parts of the
square roots of the first 8 primes. -/
def init : List Nat :=
  (primes.take 8).map fun p => rootFrom 2 (p * 2 ^ 64) 40 0 % 2 ^ 32

/-- Rotation to the right of a 32-bit word. -/
def rotr (n x : Nat) : Nat := ((x >>> n) ||| (x <<< (32 - n))) % 2 ^ 32

/-- Addition of 32-bit words. -/
def add32 (a b : Nat) : Nat := (a + b) % 2 ^ 32

/-- Big-endian bytes of `x`, `n` of them. -/
def beBytes : Nat → Nat → List Nat
  | 0, _ => []
  | n + 1, x => (x >>> (8 * n)) % 256 :: beBytes n x

/-- Padding: a one bit, zeros up to 56 mod 64, the bit length on 8 bytes. -/
def pad (msg : List Nat) : List Nat :=
  msg ++ [0x80] ++ List.replicate ((119 - msg.length % 64) % 64) 0 ++ beBytes 8 (8 * msg.length)

/-- Big-endian 32-bit words of a block. -/
def words : List Nat → List Nat
  | a :: b :: c :: d :: rest => (((a * 256 + b) * 256 + c) * 256 + d) :: words rest
  | _ => []

/-- The message schedule, most recent word first; `n` words are added. -/
def extend : Nat → List Nat → List Nat
  | 0, ws => ws
  | n + 1, ws =>
    let w2 := ws.getD 1 0
    let w7 := ws.getD 6 0
    let w15 := ws.getD 14 0
    let w16 := ws.getD 15 0
    let s0 := rotr 7 w15 ^^^ rotr 18 w15 ^^^ (w15 >>> 3)
    let s1 := rotr 17 w2 ^^^ rotr 19 w2 ^^^ (w2 >>> 10)
    extend n (add32 (add32 (add32 w16 s0) w7) s1 :: ws)

/-- One round of the compression function. -/
def round (st : List Nat) (kw : Nat × Nat) : List Nat :=
  match st with
  | [a, b, c, d, e, f, g, h] =>
    let S1 := rotr 6 e ^^^ rotr 11 e ^^^ rotr 25 e
    let ch := (e &&& f) ^^^ ((e ^^^ 0xffffffff) &&& g)
    let t1 := add32 (add32 (add32 (add32 h S1) ch) kw.1) kw.2
    let S0 := rotr 2 a ^^^ rotr 13 a ^^^ rotr 22 a
    let maj := (a &&& b) ^^^ (a &&& c) ^^^ (b &&& c)
    let t2 := add32 S0 maj
    [add32 t1 t2, a, b, c, add32 d t1, e, f, g]
  | _ => st

/-- The compression function on one 64-byte block. -/
def block (st : List Nat) (blk : List Nat) : List Nat :=
  let ws := (extend 48 (words blk).reverse).reverse
  List.zipWith add32 st ((K.zip ws).foldl round st)

/-- The blocks of a padded message; `n` bounds their number. -/
def blocks : Nat → List Nat → List (List Nat)
  | 0, _ => []
  | n + 1, bs => if bs.isEmpty then [] else bs.take 64 :: blocks n (bs.drop 64)

/-- Go `sha256.Sum256`: the 32 bytes of the digest. -/
def Sum256 (data : List Nat) : List Nat :=
  let p := pad data
  ((blocks p.length p).foldl block init).flatMap (beBytes 4)

end sha256

namespace hex

/-- The lower-case hexadecimal digit of `n < 16`. -/
def digit (n : Nat) : Char := "0123456789abcdef".data.getD n '0'

/-- Go `hex.EncodeToString`. -/
def EncodeToString (bs : List Nat) : String :=
  ⟨bs.flatMap fun b => [digit (b / 16), digit (b % 16)]⟩

end hex

/-- The UTF-8 encoding of a code point. -/
def utf8 (c : Char) : List Nat :=
  let n := c.toNat
  if n < 0x80 then [n]
  else if n < 0x800 then [0xC0 + n / 64, 0x80 + n % 64]
  else if n < 0x10000 then [0xE0 + n / 4096, 0x80 + n / 64 % 64, 0x80 + n % 64]
  else [0xF0 + n / 262144, 0x80 + n / 4096 % 64, 0x80 + n / 64 % 64, 0x80 + n % 64]

/-- Go `[]byte(s)`: the bytes of a string. -/
def bytesOf (s : String) : List Nat := s.data.flatMap utf8


namespace store

/-- Go `time.Time`, as seconds on the store's clock; `0` stands for the zero
value `time.Time{}`. -/
abbrev Time := Nat

/-- The errors returned by the store: `sql.ErrNoRows`, or an error reported
by the driver (constraint violation, full table, failure of the medium). -/
inductive Error where
  | ErrNoRows
  | driver (msg : String)
  deriving DecidableEq, Repr

/-- Outcome of the medium for one SQL statement: `none` when the statement is
executed, `some msg` when the driver fails with `msg` before touching the
tables. -/
abbrev Fault := Option String

/-- Largest rowid of an SQLite table. -/
def maxRowid : Int := 2 ^ 63 - 1

/-- The Go struct `Account`; `Weight` and `RequestCount` are the values of
the Go integers. -/
structure Account where
  ID : Int
  Name : String
  SessionID : String
  ClientCookie : String
  ClientUat : String
  ProjectID : String
  UserID : String
  AgentMode : String
  Email : String
  Weight : Int
  Enabled : Bool
  RequestCount : Int
  LastUsedAt : Time
  CreatedAt : Time
  UpdatedAt : Time
  deriving DecidableEq, Repr

/-- The Go struct `ApiKey`; `LastUsedAt` is a nullable pointer. -/
structure ApiKey where
  ID : Int
  Name : String
  KeyHash : String
  KeyFull : String
  KeyPrefix : String
  KeySuffix : String
  Enabled : Bool
  LastUsedAt : Option Time
  CreatedAt : Time
  deriving DecidableEq, Repr

/-- Largest value of a 64-bit INTEGER of SQLite, and of a Go `int64`. -/
def maxInt64 : Int := 2 ^ 63 - 1

/-- A value of column `request_count`: a 64-bit INTEGER, or the REAL that
`request_count + 1` leaves in the column once the INTEGER overflows. -/
inductive Counter where
  | int (n : Int)
  | real
  deriving DecidableEq, Repr

/-- SQLite's `request_count + 1`: integer addition, which turns to floating
point when the sum does not fit in 64 bits; adding 1 to the REAL `2 ^ 63`
gives the same REAL. -/
def Counter.succ : Counter → Counter
  | .int n => if n < maxInt64 then .int (n + 1) else .real
  | .real => .real

/-- A row of table `accounts`. -/
structure AccountRow where
  id : Int
  name : String
  session_id : String
  client_cookie : String
  client_uat : String
  project_id : String
  user_id : String
  agent_mode : String
  email : String
  weight : Int
  enabled : Bool
  request_count : Counter
  last_used_at : Option Time
  created_at : Time
  updated_at : Time
  deriving DecidableEq, Repr

/-- A row of table `settings`. The `id` column is left out: no statement of
the store reads it. -/
structure SettingsRow where
  key : String
  value : String
  deriving DecidableEq, Repr

/-- A row of table `api_keys`. -/
structure ApiKeyRow where
  id : Int
  name : String
  key_hash : String
  key_full : String
  key_prefix : String
  key_suffix : String
  enabled : Bool
  last_used_at : Option Time
  created_at : Time
  deriving DecidableEq, Repr

/-- The database behind `Store.db`: the three tables, and for the two
`AUTOINCREMENT` tables whose ids are read back the largest rowid handed out
so far (`sqlite_sequence`). -/
structure Store where
  accounts : List AccountRow
  accounts_seq : Int
  settings : List SettingsRow
  api_keys : List ApiKeyRow
  api_keys_seq : Int
  deriving DecidableEq, Repr

/-- The database produced by `New` on a fresh location: `migrate` has created
the three empty tables. -/
def Store.empty : Store :=
  { accounts := [], accounts_seq := 0, settings := [], api_keys := [], api_keys_seq := 0 }

/-- Rowid selection of an `AUTOINCREMENT` table: one more than the largest
rowid that ever existed in the table, or `SQLITE_FULL` past `maxRowid`. -/
def newRowid (seq : Int) (ids : List Int) : Except Error Int :=
  let top := ids.foldr max seq
  if top < maxRowid then .ok (top + 1) else .error (.driver "database or disk is full")

/-- The row written by the `INSERT` of `CreateAccount`: the ten bound values,
and the column defaults for `request_count`, `last_used_at`, `created_at` and
`updated_at`. -/
def newAccountRow (id : Int) (now : Time) (acc : Account) : AccountRow :=
  { id := id, name := acc.Name, session_id := acc.SessionID,
    client_cookie := acc.ClientCookie, client_uat := acc.ClientUat,
    project_id := acc.ProjectID, user_id := acc.UserID,
    agent_mode := acc.AgentMode, email := acc.Email, weight := acc.Weight,
    enabled := acc.Enabled, request_count := .int 0, last_used_at := none,
    created_at := now, updated_at := now }

/-- The statement `INSERT INTO accounts (name, ..., enabled) VALUES (...)`
followed by `LastInsertId`. -/
def insertAccount (s : Store) (now : Time) (f : Fault) (acc : Account) :
    Except Error (Int × Store) :=
  match f with
  | some msg => .error (.driver msg)
  | none =>
    match newRowid s.accounts_seq (s.accounts.map (·.id)) with
    | .error e => .error e
    | .ok id =>
      .ok (id, { s with accounts := s.accounts ++ [newAccountRow id now acc],
                        accounts_seq := id })

/-- The method `Store.CreateAccount`: the error, the caller's struct after
the call (`acc.ID` assigned on success) and the database after the call. -/
def CreateAccount (s : Store) (now : Time) (f : Fault) (acc : Account) :
    Option Error × Account × Store :=
  match insertAccount s now f acc with
  | .error e => (some e, acc, s)
  | .ok (id, s1) => (none, { acc with ID := id }, s1)

/-- The method `Store.UpdateAccount`. -/
def UpdateAccount (s : Store) (now : Time) (f : Fault) (acc : Account) :
    Option Error × Store :=
  match f with
  | some msg => (some (.driver msg), s)
  | none =>
    (none, { s with accounts := s.accounts.map fun r =>
      if r.id = acc.ID then
        { r with name := acc.Name, session_id := acc.SessionID,
                 client_cookie := acc.ClientCookie, client_uat := acc.ClientUat,
                 project_id := acc.ProjectID, user_id := acc.UserID,
                 agent_mode := acc.AgentMode, email := acc.Email,
                 weight := acc.Weight, enabled := acc.Enabled, updated_at := now }
      else r })

/-- The method `Store.DeleteAccount`. -/
def DeleteAccount (s : Store) (f : Fault) (id : Int) : Option Error × Store :=
  match f with
  | some msg => (some (.driver msg), s)
  | none => (none, { s with accounts := s.accounts.filter fun r => r.id ≠ id })

/-- Scan of one `accounts` row into the Go struct: a NULL `last_used_at`
leaves the zero time, and a `request_count` that is a REAL does not convert
to `int64`, so that `Scan` fails. -/
def scanAccount (r : AccountRow) : Except Error Account :=
  match r.request_count with
  | .real =>
    .error (.driver "sql: Scan error on column index 11, name \"request_count\": converting driver.Value type float64 (\"9.223372036854776e+18\") to a int64: invalid syntax")
  | .int n =>
    .ok
      { ID := r.id, Name := r.name, SessionID := r.session_id,
        ClientCookie := r.client_cookie, ClientUat := r.client_uat,
        ProjectID := r.project_id, UserID := r.user_id, AgentMode := r.agent_mode,
        Email := r.email, Weight := r.weight, Enabled := r.enabled,
        RequestCount := n,
        LastUsedAt := match r.last_used_at with
          | some t => t
          | none => 0,
        CreatedAt := r.created_at, UpdatedAt := r.updated_at }

/-- The method `Store.GetAccount`. -/
def GetAccount (s : Store) (f : Fault) (id : Int) : Except Error Account :=
  match f with
  | some msg => .error (.driver msg)
  | none =>
    match s.accounts.find? fun r => r.id = id with
    | none => .error .ErrNoRows
    | some r => scanAccount r

/-- The method `Store.IncrementRequestCount`. -/
def IncrementRequestCount (s : Store) (now : Time) (f : Fault) (id : Int) :
    Option Error × Store :=
  match f with
  | some msg => (some (.driver msg), s)
  | none =>
    (none, { s with accounts := s.accounts.map fun r =>
      if r.id = id then
        { r with request_count := r.request_count.succ, last_used_at := some now }
      else r })

/-- The method `Store.GetSetting`. -/
def GetSetting (s : Store) (f : Fault) (key : String) : String × Option Error :=
  match f with
  | some msg => ("", some (.driver msg))
  | none =>
    match s.settings.find? fun r => r.key = key with
    | none => ("", none)
    | some r => (r.value, none)

/-- The statement `INSERT INTO settings (key, value) VALUES (?, ?) ON
CONFLICT(key) DO UPDATE SET value = excluded.value`: a new row, or on a
conflict on `key` the value of the existing row overwritten. -/
def upsertSetting (rows : List SettingsRow) (key value : String) : List SettingsRow :=
  if rows.any fun r => r.key = key then
    rows.map fun r => if r.key = key then { r with value := value } else r
  else
    rows ++ [{ key := key, value := value }]

/-- The method `Store.SetSetting`. -/
def SetSetting (s : Store) (f : Fault) (key value : String) : Option Error × Store :=
  match f with
  | some msg => (some (.driver msg), s)
  | none => (none, { s with settings := upsertSetting s.settings key value })

/-- The row written by the `INSERT` of `CreateApiKey`: the six bound values,
and the column defaults for `last_used_at` and `created_at`. -/
def newApiKeyRow (id : Int) (now : Time) (key : ApiKey) : ApiKeyRow :=
  { id := id, name := key.Name, key_hash := key.KeyHash, key_full := key.KeyFull,
    key_prefix := key.KeyPrefix, key_suffix := key.KeySuffix,
    enabled := key.Enabled, last_used_at := none, created_at := now }

/-- The statement `INSERT INTO api_keys (name, key_hash, ...) VALUES (...)`
followed by `LastInsertId`; `key_hash` is `UNIQUE`. -/
def insertApiKey (s : Store) (now : Time) (f : Fault) (key : ApiKey) :
    Except Error (Int × Store) :=
  match f with
  | some msg => .error (.driver msg)
  | none =>
    match newRowid s.api_keys_seq (s.api_keys.map (·.id)) with
    | .error e => .error e
    | .ok id =>
      if s.api_keys.any fun r => r.key_hash = key.KeyHash then
        .error (.driver "UNIQUE constraint failed: api_keys.key_hash")
      else
        .ok (id, { s with api_keys := s.api_keys ++ [newApiKeyRow id now key],
                          api_keys_seq := id })

/-- The method `Store.CreateApiKey`: after the insert the enablement and the
timestamps are read back from the new row. `f1` is the medium's outcome for
the insert, `f2` for the read. -/
def CreateApiKey (s : Store) (now : Time) (f1 f2 : Fault) (key : ApiKey) :
    Option Error × ApiKey × Store :=
  match insertApiKey s now f1 key with
  | .error e => (some e, key, s)
  | .ok (id, s1) =>
    let key1 := { key with ID := id }
    match f2 with
    | some msg => (some (.driver msg), key1, s1)
    | none =>
      match s1.api_keys.find? fun r => r.id = id with
      | none => (some .ErrNoRows, key1, s1)
      | some r =>
        (none, { key1 with Enabled := r.enabled, LastUsedAt := r.last_used_at,
                           CreatedAt := r.created_at }, s1)

/-- The method `Store.GetApiKeyByHash`; `key_full` is not selected. -/
def GetApiKeyByHash (s : Store) (f : Fault) (hash : String) : Except Error (Option ApiKey) :=
  match f with
  | some msg => .error (.driver msg)
  | none =>
    match s.api_keys.find? fun r => r.key_hash = hash with
    | none => .ok none
    | some r =>
      .ok (some { ID := r.id, Name := r.name, KeyHash := r.key_hash, KeyFull := "",
                  KeyPrefix := r.key_prefix, KeySuffix := r.key_suffix,
                  Enabled := r.enabled, LastUsedAt := r.last_used_at,
                  CreatedAt := r.created_at })

/-- The method `Store.UpdateApiKeyEnabled`; `RowsAffected` counts the rows
matched by the `WHERE` clause. -/
def UpdateApiKeyEnabled (s : Store) (f : Fault) (id : Int) (enabled : Bool) :
    Option Error × Store :=
  match f with
  | some msg => (some (.driver msg), s)
  | none =>
    let rowsAffected := s.api_keys.countP fun r => r.id = id
    let s1 := { s with api_keys := s.api_keys.map fun r =>
      if r.id = id then { r with enabled := enabled } else r }
    if rowsAffected = 0 then (some .ErrNoRows, s1) else (none, s1)

/-- The method `Store.UpdateApiKeyLastUsed`. -/
def UpdateApiKeyLastUsed (s : Store) (now : Time) (f : Fault) (id : Int) :
    Option Error × Store :=
  match f with
  | some msg => (some (.driver msg), s)
  | none =>
    (none, { s with api_keys := s.api_keys.map fun r =>
      if r.id = id then { r with last_used_at := some now } else r })

/-- The method `Store.DeleteApiKey`. -/
def DeleteApiKey (s : Store) (f : Fault) (id : Int) : Option Error × Store :=
  match f with
  | some msg => (some (.driver msg), s)
  | none =>
    let rowsAffected := s.api_keys.countP fun r => r.id = id
    let s1 := { s with api_keys := s.api_keys.filter fun r => r.id ≠ id }
    if rowsAffected = 0 then (some .ErrNoRows, s1) else (none, s1)

end store
namespace http

/-- An `http.ResponseWriter`: the header map, the status code once it has
been written, and the body written so far. -/
structure ResponseWriter where
  header : Header
  code : Option Nat
  body : String
  deriving DecidableEq, Repr

/-- Go `ResponseWriter.WriteHeader`: only the first call sets the status. -/
def ResponseWriter.WriteHeader (w : ResponseWriter) (statusCode : Nat) : ResponseWriter :=
  match w.code with
  | none => { w with code := some statusCode }
  | some _ => w

/-- Go `ResponseWriter.Write`: status 200 is implied when none was written,
then the bytes are appended to the body. -/
def ResponseWriter.Write (w : ResponseWriter) (b : String) : ResponseWriter :=
  let w1 := w.WriteHeader 200
  { w1 with body := w1.body ++ b }

/-- Go `http.StatusUnauthorized`. -/
def StatusUnauthorized : Nat := 401

/-- Go `http.HandlerFunc`, as the effect of the handler on the writer. -/
abbrev HandlerFunc := ResponseWriter → Request → ResponseWriter

end http

namespace middleware

open strings store

/-- What a call of the middleware does besides writing the response: the
synchronous store lookup, the goroutine started for the last-used update, and
the call of the protected handler. -/
inductive Effect where
  | GetApiKeyByHash (hash : String)
  | goUpdateApiKeyLastUsed (id : Int)
  | next (r : http.Request)
  deriving DecidableEq, Repr

/-- Whether an effect is a write to the store. -/
def Effect.isWrite : Effect → Bool
  | .goUpdateApiKeyLastUsed _ => true
  | _ => false

/-- Whether an effect is an operation of the store. -/
def Effect.isStore : Effect → Bool
  | .GetApiKeyByHash _ => true
  | .goUpdateApiKeyLastUsed _ => true
  | .next _ => false

/-- The function `validateApiKey` of `apikey.go`; `f` is the medium's outcome
for the lookup. The result comes with the store calls made. -/
def validateApiKey (key : String) (st : Store) (f : Fault) : Bool × List Effect :=
  let hash := sha256.Sum256 (bytesOf key)
  let hashStr := hex.EncodeToString hash
  match GetApiKeyByHash st f hashStr with
  | .error _ => (false, [.GetApiKeyByHash hashStr])
  | .ok none => (false, [.GetApiKeyByHash hashStr])
  | .ok (some apiKey) =>
    if !apiKey.Enabled then (false, [.GetApiKeyByHash hashStr])
    else (true, [.GetApiKeyByHash hashStr, .goUpdateApiKeyLastUsed apiKey.ID])

/-- Body of the rejection for a request without credential. -/
def missingBody : String :=
  "\x7b\"error\":\x7b\"type\":\"authentication_error\",\"message\":\"missing api key\"\x7d\x7d"

/-- Body of the rejection for a credential that does not validate. -/
def invalidBody : String :=
  "\x7b\"error\":\x7b\"type\":\"authentication_error\",\"message\":\"invalid api key\"\x7d\x7d"

/-- The handler returned by `ApiKeyAuth(store, next)`, applied to a writer and
a request: the writer after the call and the effects, in order. -/
def ApiKeyAuth (st : Store) (f : Fault) (next : http.HandlerFunc) (w : http.ResponseWriter) (r : http.Request) :
    http.ResponseWriter × List Effect :=
  let key := extractApiKey r
  if key == "" then
    let w1 := { w with header := w.header.Set "Content-Type" "application/json" }
    let w2 := w1.WriteHeader http.StatusUnauthorized
    (w2.Write missingBody, [])
  else
    let v := validateApiKey key st f
    if !v.1 then
      let w1 := { w with header := w.header.Set "Content-Type" "application/json" }
      let w2 := w1.WriteHeader http.StatusUnauthorized
      (w2.Write invalidBody, v.2)
    else
      (next w r, v.2 ++ [.next r])

end middleware

namespace store

/-- The constraints declared by the schema: `id` is the primary key of
`accounts` and of `api_keys`, `settings.key` and `api_keys.key_hash` are
`UNIQUE`. -/
def WF (s : Store) : Prop :=
  (s.accounts.map (·.id)).Nodup ∧ (s.settings.map (·.key)).Nodup ∧
    (s.api_keys.map (·.id)).Nodup ∧ (s.api_keys.map (·.key_hash)).Nodup

instance (s : Store) : Decidable (WF s) := by
  unfold WF; infer_instance

/-- A call of one of the mutating methods of the store, with its inputs. -/
inductive Op where
  | CreateAccount (now : Time) (f : Fault) (acc : Account)
  | UpdateAccount (now : Time) (f : Fault) (acc : Account)
  | DeleteAccount (f : Fault) (id : Int)
  | IncrementRequestCount (now : Time) (f : Fault) (id : Int)
  | SetSetting (f : Fault) (key value : String)
  | CreateApiKey (now : Time) (f1 f2 : Fault) (key : ApiKey)
  | UpdateApiKeyEnabled (f : Fault) (id : Int) (enabled : Bool)
  | UpdateApiKeyLastUsed (now : Time) (f : Fault) (id : Int)
  | DeleteApiKey (f : Fault) (id : Int)
  deriving DecidableEq, Repr

/-- The database after a call. -/
def Op.apply (s : Store) : Op → Store
  | .CreateAccount now f acc => (store.CreateAccount s now f acc).2.2
  | .UpdateAccount now f acc => (store.UpdateAccount s now f acc).2
  | .DeleteAccount f id => (store.DeleteAccount s f id).2
  | .IncrementRequestCount now f id => (store.IncrementRequestCount s now f id).2
  | .SetSetting f key value => (store.SetSetting s f key value).2
  | .CreateApiKey now f1 f2 key => (store.CreateApiKey s now f1 f2 key).2.2
  | .UpdateApiKeyEnabled f id enabled => (store.UpdateApiKeyEnabled s f id enabled).2
  | .UpdateApiKeyLastUsed now f id => (store.UpdateApiKeyLastUsed s now f id).2
  | .DeleteApiKey f id => (store.DeleteApiKey s f id).2

/-- The database after a sequence of calls on a fresh store. -/
def run (ops : List Op) : Store :=
  ops.foldl Op.apply Store.empty

/-- The states reachable from the empty store through the store's methods. -/
def Reachable (s : Store) : Prop :=
  ∃ ops, run ops = s

/-- Table `api_keys` holds a row with id `i` and hash `h`. -/
def HasKey (s : Store) (i : Int) (h : String) : Prop :=
  ∃ r ∈ s.api_keys, r.id = i ∧ r.key_hash = h

instance (s : Store) (i : Int) (h : String) : Decidable (HasKey s i h) := by
  unfold HasKey; infer_instance

/-- In the history `ops`, a key record with hash `h` was stored under id `i`
and no later `DeleteApiKey i` succeeded. -/
def StoredLive (ops : List Op) (i : Int) (h : String) : Prop :=
  ∃ pre now f1 f2 key post s1,
    ops = pre ++ Op.CreateApiKey now f1 f2 key :: post ∧
    insertApiKey (run pre) now f1 key = .ok (i, s1) ∧ key.KeyHash = h ∧
    ∀ mid f rest, post = mid ++ Op.DeleteApiKey f i :: rest →
      (DeleteApiKey (run (pre ++ Op.CreateApiKey now f1 f2 key :: mid)) f i).1 ≠ none

end store

/-! ## Sample inputs -/

namespace sample

open store

/-- A key record for secret `sk-abc123`, enabled; `KeyHash` is the SHA-256
digest of the secret, in hexadecimal. -/
def keyAbc : ApiKey :=
  { ID := 0, Name := "ci",
    KeyHash := "0a2f6ba7b3d4973643557c2bbae4f2f717b3f1d1baf8d730db9272ae6d4824ab",
    KeyFull := "sk-abc123",
    KeyPrefix := "sk-", KeySuffix := "c123", Enabled := true, LastUsedAt := none,
    CreatedAt := 0 }

/-- A key record for secret `sk-old999`, disabled. -/
def keyOld : ApiKey :=
  { ID := 0, Name := "old",
    KeyHash := "a1914212d7617321aba30ac7e1bdbf02446e6fca916ce6ce8e752f5f42f773df",
    KeyFull := "sk-old999",
    KeyPrefix := "sk-", KeySuffix := "d999", Enabled := false, LastUsedAt := none,
    CreatedAt := 0 }

/-- An account with a non-zero request counter on input. -/
def acct : Account :=
  { ID := 0, Name := "pool-1", SessionID := "sess", ClientCookie := "cookie",
    ClientUat := "uat", ProjectID := "proj", UserID := "user", AgentMode := "",
    Email := "a@example.org", Weight := 3, Enabled := true, RequestCount := 5,
    LastUsedAt := 0, CreatedAt := 0, UpdatedAt := 0 }

/-- The history creating the two keys and the account. -/
def history : List Op :=
  [.CreateApiKey 100 none none keyAbc, .CreateApiKey 101 none none keyOld,
   .CreateAccount 102 none acct]

/-- The store after `history`. -/
def db : Store := run history

/-- An unwritten response writer. -/
def fresh : http.ResponseWriter := ⟨[], none, ""⟩

/-- A protected handler: answers 200 with body `ok`. -/
def okHandler : http.HandlerFunc := fun w _ => (w.WriteHeader 200).Write "ok"

end sample

set_option maxRecDepth 1000000

/-! ## Lemmas on trimming -/

namespace strings

theorem TrimSpace_data (s : String) :
    (TrimSpace s).data = (s.data.dropWhile isSpace).rdropWhile isSpace := rfl

theorem str_eq_empty_iff (s : String) : s = "" ↔ s.data = [] := by
  constructor
  · intro h; rw [h]
  · intro h; exact String.ext h

theorem trim_eq_nil_iff (l : List Char) :
    (l.dropWhile isSpace).rdropWhile isSpace = [] ↔ ∀ x ∈ l, isSpace x = true := by
  rw [List.rdropWhile_eq_nil_iff]
  constructor
  · intro h
    rw [← List.dropWhile_eq_nil_iff]
    by_contra hne
    have h1 := List.head_dropWhile_not isSpace l hne
    have h2 := h _ (List.head_mem hne)
    simp [h2] at h1
  · intro h x hx
    exact h x ((List.dropWhile_suffix _).subset hx)

/-- Every element dropped on the right is white space. -/
theorem rdropWhile_split (l : List Char) :
    ∃ sp, l = l.rdropWhile isSpace ++ sp ∧ ∀ x ∈ sp, isSpace x = true := by
  refine ⟨(l.reverse.takeWhile isSpace).reverse, ?_, ?_⟩
  · have h := List.takeWhile_append_dropWhile isSpace l.reverse
    have h2 := congrArg List.reverse h
    rw [List.reverse_append, List.reverse_reverse] at h2
    exact h2.symm
  · intro x hx
    rw [List.mem_reverse] at hx
    exact List.mem_takeWhile_imp hx

theorem rdropWhile_append_spaces (a sp : List Char) (hsp : ∀ x ∈ sp, isSpace x = true) :
    (a ++ sp).rdropWhile isSpace = a.rdropWhile isSpace := by
  unfold List.rdropWhile
  rw [List.reverse_append, List.dropWhile_append_of_pos]
  intro x hx
  exact hsp x (List.mem_reverse.mp hx)

theorem rdropWhile_append_of_not_all (a k : List Char) (hk : ¬ ∀ x ∈ k, isSpace x = true) :
    (a ++ k).rdropWhile isSpace = a ++ k.rdropWhile isSpace := by
  have hne : k.reverse.dropWhile isSpace ≠ [] := by
    intro h
    rw [List.dropWhile_eq_nil_iff] at h
    exact hk fun x hx => h x (List.mem_reverse.mpr hx)
  unfold List.rdropWhile
  rw [List.reverse_append, List.dropWhile_append]
  have : (List.dropWhile isSpace k.reverse).isEmpty = false := by
    cases hd : List.dropWhile isSpace k.reverse with
    | nil => exact absurd hd hne
    | cons _ _ => rfl
  rw [this]
  simp

/-- Trimming on the left and on the right commute. -/
theorem trim_rdropWhile (k : List Char) :
    ((k.rdropWhile isSpace).dropWhile isSpace).rdropWhile isSpace =
      (k.dropWhile isSpace).rdropWhile isSpace := by
  obtain ⟨sp, hk, hsp⟩ := rdropWhile_split k
  generalize k.rdropWhile isSpace = k1 at hk ⊢
  subst hk
  rw [List.dropWhile_append]
  cases hd : List.dropWhile isSpace k1 with
  | nil =>
    have : List.dropWhile isSpace sp = [] := List.dropWhile_eq_nil_iff.mpr hsp
    simp [this]
  | cons c cs =>
    simp only [List.isEmpty_cons, Bool.false_eq_true, if_false]
    rw [rdropWhile_append_spaces _ _ hsp]

theorem head_of_prefix {a b : List Char} (hp : a <+: b) (ha : a ≠ []) (hb : b ≠ []) :
    a.head ha = b.head hb := by
  obtain ⟨t, rfl⟩ := hp
  cases a with
  | nil => exact absurd rfl ha
  | cons c cs => rfl

/-- A trimmed string ends with a character that is not white space. -/
theorem TrimSpace_getLast (s : String) (h : (TrimSpace s).data ≠ []) :
    isSpace ((TrimSpace s).data.getLast h) = false := by
  have := List.rdropWhile_last_not isSpace (s.data.dropWhile isSpace) h
  simpa using this

/-- A trimmed string starts with a character that is not white space. -/
theorem TrimSpace_head (s : String) (h : (TrimSpace s).data ≠ []) :
    isSpace ((TrimSpace s).data.head h) = false := by
  have hpre : (TrimSpace s).data <+: s.data.dropWhile isSpace :=
    List.rdropWhile_prefix isSpace _
  have hne : s.data.dropWhile isSpace ≠ [] := by
    intro h0
    rw [h0] at hpre
    exact h (List.prefix_nil.mp hpre)
  have hh : (TrimSpace s).data.head h = (s.data.dropWhile isSpace).head hne :=
    head_of_prefix hpre h hne
  rw [hh]
  exact List.head_dropWhile_not isSpace _ hne

end strings
/-! ## Credential extraction -/

namespace middleware

open strings store

theorem HasPrefix_append (pre rest : String) : HasPrefix (pre ++ rest) pre = true := by
  simp [HasPrefix, String.data_append]

theorem HasPrefix_iff (s pre : String) :
    HasPrefix s pre = true ↔ ∃ rest : String, s = pre ++ rest := by
  constructor
  · intro h
    simp only [HasPrefix, List.isPrefixOf_iff_prefix] at h
    obtain ⟨t, ht⟩ := h
    exact ⟨⟨t⟩, String.ext (by simp [String.data_append, ht])⟩
  · rintro ⟨rest, rfl⟩
    exact HasPrefix_append pre rest

theorem TrimPrefix_append (pre rest : String) : TrimPrefix (pre ++ rest) pre = rest := by
  simp only [TrimPrefix, HasPrefix_append, if_true]
  exact String.ext (by simp [String.data_append])

theorem extractApiKey_of_key (r : http.Request)
    (h : TrimSpace (r.Header.Get "x-api-key") ≠ "") :
    extractApiKey r = TrimSpace (r.Header.Get "x-api-key") := by
  simp [extractApiKey, h]

theorem extractApiKey_of_bearer (r : http.Request)
    (h : TrimSpace (r.Header.Get "x-api-key") = "") (rest : String)
    (ha : TrimSpace (r.Header.Get "Authorization") = "Bearer " ++ rest) :
    extractApiKey r = TrimSpace rest := by
  simp only [extractApiKey, h, ha, HasPrefix_append, TrimPrefix_append]
  simp

theorem extractApiKey_of_none (r : http.Request)
    (h : TrimSpace (r.Header.Get "x-api-key") = "")
    (ha : HasPrefix (TrimSpace (r.Header.Get "Authorization")) "Bearer " = false) :
    extractApiKey r = "" := by
  simp [extractApiKey, h, ha]

/-- After a trimmed `Bearer ` value the remainder holds a character that is
not white space. -/
theorem bearer_rest_not_blank (s rest : String) (ha : TrimSpace s = "Bearer " ++ rest) :
    TrimSpace rest ≠ "" := by
  intro h0
  have hall : ∀ x ∈ rest.data, isSpace x = true := by
    rw [str_eq_empty_iff, TrimSpace_data, trim_eq_nil_iff] at h0
    exact h0
  have hd : (TrimSpace s).data = "Bearer ".data ++ rest.data := by
    rw [ha, String.data_append]
  have hne : (TrimSpace s).data ≠ [] := by
    rw [hd]; simp
  have hlast := TrimSpace_getLast s hne
  have hmem : ∀ (l : List Char) (h : l ≠ []), l = "Bearer ".data ++ rest.data →
      isSpace (l.getLast h) = true := by
    intro l h hl
    subst hl
    by_cases hr : rest.data = []
    · simp only [hr]
      rfl
    · rw [List.getLast_append_of_ne_nil hr]
      exact hall _ (List.getLast_mem hr)
  have hmem := hmem _ hne hd
  rw [hlast] at hmem
  exact absurd hmem (by decide)

theorem Get_key_only_key (K : String) :
    http.Header.Get [("X-Api-Key", [K])] "x-api-key" = K := by
  have h : textproto.CanonicalMIMEHeaderKey "x-api-key" = "X-Api-Key" := by decide
  simp [http.Header.Get, h, List.lookup]

theorem Get_key_only_auth (K : String) :
    http.Header.Get [("X-Api-Key", [K])] "Authorization" = "" := by
  have h : textproto.CanonicalMIMEHeaderKey "Authorization" = "Authorization" := by decide
  have h2 : ("Authorization" == "X-Api-Key") = false := by decide
  simp [http.Header.Get, h, List.lookup, h2]

theorem Get_auth_only_key (V : String) :
    http.Header.Get [("Authorization", [V])] "x-api-key" = "" := by
  have h : textproto.CanonicalMIMEHeaderKey "x-api-key" = "X-Api-Key" := by decide
  have h2 : ("X-Api-Key" == "Authorization") = false := by decide
  simp [http.Header.Get, h, List.lookup, h2]

theorem Get_auth_only_auth (V : String) :
    http.Header.Get [("Authorization", [V])] "Authorization" = V := by
  have h : textproto.CanonicalMIMEHeaderKey "Authorization" = "Authorization" := by decide
  simp [http.Header.Get, h, List.lookup]

theorem TrimSpace_empty : TrimSpace "" = "" := by decide

theorem extractApiKey_key_only (K : String) :
    extractApiKey ⟨[("X-Api-Key", [K])]⟩ = TrimSpace K := by
  by_cases h : TrimSpace K = ""
  · rw [extractApiKey_of_none, h]
    · simp [Get_key_only_key, h]
    · simp only [Get_key_only_auth, TrimSpace_empty]
      decide
  · rw [extractApiKey_of_key]
    · simp [Get_key_only_key]
    · simpa [Get_key_only_key] using h

theorem extractApiKey_bearer_only (K : String) :
    extractApiKey ⟨[("Authorization", ["Bearer " ++ K])]⟩ = TrimSpace K := by
  have hx : TrimSpace (http.Header.Get [("Authorization", ["Bearer " ++ K])] "x-api-key") = "" := by
    rw [Get_auth_only_key]; exact TrimSpace_empty
  have hB : ("Bearer " ++ K).data.dropWhile isSpace = "Bearer ".data ++ K.data := by
    rw [String.data_append]
    rfl
  by_cases hall : ∀ x ∈ K.data, isSpace x = true
  · have hK : TrimSpace K = "" := by
      rw [str_eq_empty_iff, TrimSpace_data, trim_eq_nil_iff]; exact hall
    have ha : TrimSpace ("Bearer " ++ K) = "Bearer" := by
      apply String.ext
      rw [TrimSpace_data, hB, rdropWhile_append_spaces _ _ hall]
      decide
    rw [hK]
    apply extractApiKey_of_none _ hx
    simp only [Get_auth_only_auth, ha]
    decide
  · have ha : TrimSpace ("Bearer " ++ K) = "Bearer " ++ (⟨K.data.rdropWhile isSpace⟩ : String) := by
      apply String.ext
      rw [TrimSpace_data, hB, rdropWhile_append_of_not_all _ _ hall, String.data_append]
    rw [extractApiKey_of_bearer _ hx _ (by simpa [Get_auth_only_auth] using ha)]
    apply String.ext
    rw [TrimSpace_data, TrimSpace_data]
    exact trim_rdropWhile K.data

end middleware
/-! ## The gateway -/

namespace store

theorem find?_eq_some_of_nodup {α β : Type} [DecidableEq β] (g : α → β) (l : List α)
    (hnd : (l.map g).Nodup) (r : α) (hr : r ∈ l) :
    l.find? (fun x => decide (g x = g r)) = some r := by
  induction l with
  | nil => cases hr
  | cons a t ih =>
    rw [List.map_cons, List.nodup_cons] at hnd
    rcases List.mem_cons.mp hr with rfl | hin
    · simp
    · have hne : g a ≠ g r := by
        intro heq
        exact hnd.1 (heq ▸ List.mem_map_of_mem g hin)
      rw [List.find?_cons_of_neg _ (by simpa using hne)]
      exact ih hnd.2 hin

theorem GetApiKeyByHash_some_iff (st : Store) (hash : String) :
    (∃ a, GetApiKeyByHash st none hash = .ok (some a)) ↔
      ∃ r ∈ st.api_keys, r.key_hash = hash := by
  unfold GetApiKeyByHash
  constructor
  · rintro ⟨a, ha⟩
    cases hf : st.api_keys.find? (fun r => decide (r.key_hash = hash)) with
    | none => simp [hf] at ha
    | some r =>
      exact ⟨r, List.mem_of_find?_eq_some hf, by simpa using List.find?_some hf⟩
  · rintro ⟨r, hr, hh⟩
    cases hf : st.api_keys.find? (fun r => decide (r.key_hash = hash)) with
    | none =>
      rw [List.find?_eq_none] at hf
      exact absurd hh (by simpa using hf r hr)
    | some r1 => exact ⟨_, rfl⟩

theorem GetApiKeyByHash_none_iff (st : Store) (hash : String) :
    GetApiKeyByHash st none hash = .ok none ↔ ∀ r ∈ st.api_keys, r.key_hash ≠ hash := by
  unfold GetApiKeyByHash
  cases hf : st.api_keys.find? (fun r => decide (r.key_hash = hash)) with
  | none =>
    rw [List.find?_eq_none] at hf
    simpa using hf
  | some r =>
    simp only [Except.ok.injEq, reduceCtorEq, false_iff]
    intro h
    exact h r (List.mem_of_find?_eq_some hf) (by simpa using List.find?_some hf)

end store

namespace middleware

open strings store

theorem validateApiKey_true_iff (st : Store) (hwf : WF st)
    (k : String) :
    (validateApiKey k st none).1 = true ↔
      ∃ r ∈ st.api_keys, r.key_hash = hex.EncodeToString (sha256.Sum256 (bytesOf k)) ∧ r.enabled = true := by
  unfold validateApiKey GetApiKeyByHash
  constructor
  · intro h
    cases hf : st.api_keys.find? (fun r => decide (r.key_hash = hex.EncodeToString (sha256.Sum256 (bytesOf k)))) with
    | none => simp [hf] at h
    | some r =>
      refine ⟨r, List.mem_of_find?_eq_some hf, by simpa using List.find?_some hf, ?_⟩
      simp only [hf] at h
      cases he : r.enabled with
      | true => rfl
      | false => simp [he] at h
  · rintro ⟨r, hr, hh, he⟩
    have := find?_eq_some_of_nodup (fun x : ApiKeyRow => x.key_hash) st.api_keys hwf.2.2.2 r hr
    simp only [hh] at this
    simp [this, he]

theorem validateApiKey_effects_of_false (st : Store) (f : Fault)
    (k : String) (h : (validateApiKey k st f).1 = false) :
    (validateApiKey k st f).2 = [.GetApiKeyByHash (hex.EncodeToString (sha256.Sum256 (bytesOf k)))] := by
  unfold validateApiKey at h ⊢
  cases hg : GetApiKeyByHash st f (hex.EncodeToString (sha256.Sum256 (bytesOf k))) with
  | error e => simp only [hg]
  | ok o =>
    cases o with
    | none => simp only [hg]
    | some a =>
      simp only [hg] at h ⊢
      cases he : a.Enabled with
      | true => simp [he] at h
      | false => simp [he]

theorem Header_Get_Set (hdr : http.Header) (key value : String) :
    (hdr.Set key value).Get key = value := by
  simp [http.Header.Get, http.Header.Set, List.lookup]

theorem ApiKeyAuth_missing (st : Store) (f : Fault)
    (next : http.HandlerFunc) (hdr : http.Header) (r : http.Request)
    (h : extractApiKey r = "") :
    ApiKeyAuth st f next ⟨hdr, none, ""⟩ r =
      (⟨hdr.Set "Content-Type" "application/json", some 401,
        "\x7b\"error\":\x7b\"type\":\"authentication_error\",\"message\":\"missing api key\"\x7d\x7d"⟩,
        []) := by
  simp [ApiKeyAuth, h, http.ResponseWriter.WriteHeader, http.ResponseWriter.Write,
    http.StatusUnauthorized]
  rfl

theorem ApiKeyAuth_invalid (st : Store) (f : Fault)
    (next : http.HandlerFunc) (hdr : http.Header) (r : http.Request)
    (h : extractApiKey r ≠ "")
    (hv : (validateApiKey (extractApiKey r) st f).1 = false) :
    ApiKeyAuth st f next ⟨hdr, none, ""⟩ r =
      (⟨hdr.Set "Content-Type" "application/json", some 401,
        "\x7b\"error\":\x7b\"type\":\"authentication_error\",\"message\":\"invalid api key\"\x7d\x7d"⟩,
        [.GetApiKeyByHash (hex.EncodeToString (sha256.Sum256 (bytesOf (extractApiKey r))))]) := by
  have he := validateApiKey_effects_of_false st f _ hv
  simp [ApiKeyAuth, h, hv, he, http.ResponseWriter.WriteHeader, http.ResponseWriter.Write,
    http.StatusUnauthorized]
  rfl

theorem TrimSpace_bearer_blank (ws : String) (hall : ∀ c ∈ ws.data, isSpace c = true) :
    TrimSpace ("Bearer " ++ ws) = "Bearer" := by
  apply String.ext
  have hB : ("Bearer " ++ ws).data.dropWhile isSpace = "Bearer ".data ++ ws.data := by
    rw [String.data_append]
    rfl
  rw [TrimSpace_data, hB, rdropWhile_append_spaces _ _ hall]
  decide

end middleware
/-! ## Claims on the gateway -/

namespace middleware

open strings store

/-- C1. On a store that satisfies its schema, and with the medium answering,
`validateApiKey k` is true exactly when `api_keys` holds a row whose
`key_hash` is the digest of `k` and whose `enabled` flag is set; and it is
false whenever `GetApiKeyByHash` returns an error, an absent record, or a
record that is not enabled. -/
theorem C1_validateApiKey_iff (st : Store) (hwf : WF st)
    (k : String) :
    ((validateApiKey k st none).1 = true ↔
      ∃ r ∈ st.api_keys, r.key_hash = hex.EncodeToString (sha256.Sum256 (bytesOf k)) ∧ r.enabled = true) ∧
    (∀ f e, GetApiKeyByHash st f (hex.EncodeToString (sha256.Sum256 (bytesOf k))) = .error e →
      (validateApiKey k st f).1 = false) ∧
    (∀ f, GetApiKeyByHash st f (hex.EncodeToString (sha256.Sum256 (bytesOf k))) = .ok none →
      (validateApiKey k st f).1 = false) ∧
    (∀ f a, GetApiKeyByHash st f (hex.EncodeToString (sha256.Sum256 (bytesOf k))) = .ok (some a) → a.Enabled = false →
      (validateApiKey k st f).1 = false) := by
  refine ⟨validateApiKey_true_iff st hwf k, ?_, ?_, ?_⟩
  · intro f e h
    simp [validateApiKey, h]
  · intro f h
    simp [validateApiKey, h]
  · intro f a h he
    simp [validateApiKey, h, he]

/-- C1, on the sample store: the enabled key validates. -/
theorem C1_validateApiKey_iff_witness :
    WF sample.db ∧ (validateApiKey "sk-abc123" sample.db none).1 = true :=
  ⟨by decide,
   (C1_validateApiKey_iff sample.db (by decide) "sk-abc123").1.mpr
     (by decide)⟩

/-- C2. With `x` the trimmed `x-api-key` value and `a` the trimmed
`Authorization` value: `extractApiKey` returns `x` when `x` is not empty,
whatever `a` is; otherwise, when `a` is `Bearer ` followed by `rest`, it
returns `rest` trimmed; otherwise the empty string. A request with the single
header `x-api-key: K` and one with the single header `Authorization: Bearer K`
both yield `K` trimmed. -/
theorem C2_extractApiKey_first_match (r : http.Request) :
    (TrimSpace (r.Header.Get "x-api-key") ≠ "" →
      extractApiKey r = TrimSpace (r.Header.Get "x-api-key")) ∧
    (TrimSpace (r.Header.Get "x-api-key") = "" →
      ∀ rest : String, TrimSpace (r.Header.Get "Authorization") = "Bearer " ++ rest →
        extractApiKey r = TrimSpace rest) ∧
    (TrimSpace (r.Header.Get "x-api-key") = "" →
      (¬ ∃ rest : String, TrimSpace (r.Header.Get "Authorization") = "Bearer " ++ rest) →
        extractApiKey r = "") ∧
    (∀ K : String,
      extractApiKey ⟨[("X-Api-Key", [K])]⟩ = TrimSpace K ∧
      extractApiKey ⟨[("Authorization", ["Bearer " ++ K])]⟩ = TrimSpace K) := by
  refine ⟨extractApiKey_of_key r, extractApiKey_of_bearer r, ?_, ?_⟩
  · intro hx hn
    apply extractApiKey_of_none r hx
    rw [← HasPrefix_iff] at hn
    simpa using hn
  · intro K
    exact ⟨extractApiKey_key_only K, extractApiKey_bearer_only K⟩

/-- C2, on a request carrying both headers and on one carrying only a bearer
token. -/
theorem C2_extractApiKey_first_match_witness :
    extractApiKey ⟨[("Authorization", ["Bearer sk-other"]), ("X-Api-Key", [" sk-abc123 "])]⟩
        = "sk-abc123" ∧
      extractApiKey ⟨[("Authorization", [" Bearer  sk-abc123"])]⟩ = "sk-abc123" :=
  ⟨(C2_extractApiKey_first_match
      ⟨[("Authorization", ["Bearer sk-other"]), ("X-Api-Key", [" sk-abc123 "])]⟩).1 (by decide),
   (C2_extractApiKey_first_match ⟨[("Authorization", [" Bearer  sk-abc123"])]⟩).2.1
      (by decide) " sk-abc123" (by decide)⟩

/-- C3. When the extracted credential is empty, the handler answers on an
unwritten writer with status 401, `Content-Type: application/json` and the
"missing api key" body, and has no effect: no store lookup, no store write,
no call of the protected handler. -/
theorem C3_missing_key_rejected (st : Store) (f : Fault)
    (next : http.HandlerFunc) (hdr : http.Header) (r : http.Request)
    (h : extractApiKey r = "") :
    ApiKeyAuth st f next ⟨hdr, none, ""⟩ r =
      (⟨hdr.Set "Content-Type" "application/json", some 401,
        "\x7b\"error\":\x7b\"type\":\"authentication_error\",\"message\":\"missing api key\"\x7d\x7d"⟩,
        []) ∧
    (hdr.Set "Content-Type" "application/json").Get "Content-Type" = "application/json" :=
  ⟨ApiKeyAuth_missing st f next hdr r h, Header_Get_Set hdr _ _⟩

/-- C3, on a request without headers. -/
theorem C3_missing_key_rejected_witness :
    extractApiKey ⟨[]⟩ = "" ∧
      (ApiKeyAuth sample.db none sample.okHandler ⟨[], none, ""⟩ ⟨[]⟩).1.code
        = some 401 ∧
      (ApiKeyAuth sample.db none sample.okHandler ⟨[], none, ""⟩ ⟨[]⟩).2 = [] :=
  ⟨by decide,
   by rw [(C3_missing_key_rejected sample.db none sample.okHandler [] ⟨[]⟩
        (by decide)).1],
   by rw [(C3_missing_key_rejected sample.db none sample.okHandler [] ⟨[]⟩
        (by decide)).1]⟩

/-- C4. Two requests with non-empty credentials that both fail validation,
for whatever reason (unknown key, disabled key, store error), get the same
response: status 401, JSON content type, the "invalid api key" body. In both
the only effect is the lookup: no store write is issued and the protected
handler is not called. -/
theorem C4_invalid_key_indistinguishable (next : http.HandlerFunc) (hdr : http.Header) (st1 st2 : Store) (f1 f2 : Fault)
    (r1 r2 : http.Request)
    (h1 : extractApiKey r1 ≠ "") (h2 : extractApiKey r2 ≠ "")
    (v1 : (validateApiKey (extractApiKey r1) st1 f1).1 = false)
    (v2 : (validateApiKey (extractApiKey r2) st2 f2).1 = false) :
    (ApiKeyAuth st1 f1 next ⟨hdr, none, ""⟩ r1).1 =
      (ApiKeyAuth st2 f2 next ⟨hdr, none, ""⟩ r2).1 ∧
    (ApiKeyAuth st1 f1 next ⟨hdr, none, ""⟩ r1).1 =
      ⟨hdr.Set "Content-Type" "application/json", some 401,
        "\x7b\"error\":\x7b\"type\":\"authentication_error\",\"message\":\"invalid api key\"\x7d\x7d"⟩ ∧
    (hdr.Set "Content-Type" "application/json").Get "Content-Type" = "application/json" ∧
    (ApiKeyAuth st1 f1 next ⟨hdr, none, ""⟩ r1).2 =
      [.GetApiKeyByHash (hex.EncodeToString (sha256.Sum256 (bytesOf (extractApiKey r1))))] ∧
    (ApiKeyAuth st2 f2 next ⟨hdr, none, ""⟩ r2).2 =
      [.GetApiKeyByHash (hex.EncodeToString (sha256.Sum256 (bytesOf (extractApiKey r2))))] := by
  rw [ApiKeyAuth_invalid st1 f1 next hdr r1 h1 v1,
    ApiKeyAuth_invalid st2 f2 next hdr r2 h2 v2]
  exact ⟨rfl, rfl, Header_Get_Set hdr _ _, rfl, rfl⟩

/-- C4, on the sample store: an unknown key and the disabled key. -/
theorem C4_invalid_key_indistinguishable_witness :
    (ApiKeyAuth sample.db none sample.okHandler ⟨[], none, ""⟩
        ⟨[("X-Api-Key", ["sk-nobody"])]⟩).1 =
      (ApiKeyAuth sample.db none sample.okHandler ⟨[], none, ""⟩
        ⟨[("Authorization", ["Bearer sk-old999"])]⟩).1 :=
  (C4_invalid_key_indistinguishable sample.okHandler [] sample.db sample.db
    none none ⟨[("X-Api-Key", ["sk-nobody"])]⟩ ⟨[("Authorization", ["Bearer sk-old999"])]⟩
    (by decide) (by decide) (by decide) (by decide)).1

/-- C10. `extractApiKey` returns the empty string exactly when the trimmed
`x-api-key` value is empty and the trimmed `Authorization` value does not
start with `Bearer `; so the bearer branch never returns an empty credential.
A returned credential neither starts nor ends with white space. A request
whose `Authorization` value is `Bearer ` followed only by white space, and
which has no `x-api-key` value, gets the "missing api key" rejection without
any store call. -/
theorem C10_extractApiKey_empty_iff (r : http.Request) :
    (extractApiKey r = "" ↔
      TrimSpace (r.Header.Get "x-api-key") = "" ∧
        HasPrefix (TrimSpace (r.Header.Get "Authorization")) "Bearer " = false) ∧
    (TrimSpace (r.Header.Get "x-api-key") = "" →
      HasPrefix (TrimSpace (r.Header.Get "Authorization")) "Bearer " = true →
        extractApiKey r ≠ "") ∧
    (∀ h : (extractApiKey r).data ≠ [],
      isSpace ((extractApiKey r).data.head h) = false ∧
      isSpace ((extractApiKey r).data.getLast h) = false) ∧
    (∀ ws : String, (∀ c ∈ ws.data, isSpace c = true) →
      TrimSpace (r.Header.Get "x-api-key") = "" →
      r.Header.Get "Authorization" = "Bearer " ++ ws →
      ∀ (st : Store) (f : Fault) (next : http.HandlerFunc)
        (hdr : http.Header),
        ApiKeyAuth st f next ⟨hdr, none, ""⟩ r =
          (⟨hdr.Set "Content-Type" "application/json", some 401,
            "\x7b\"error\":\x7b\"type\":\"authentication_error\",\"message\":\"missing api key\"\x7d\x7d"⟩,
            [])) := by
  have hbear : TrimSpace (r.Header.Get "x-api-key") = "" →
      HasPrefix (TrimSpace (r.Header.Get "Authorization")) "Bearer " = true →
        extractApiKey r ≠ "" := by
    intro hx hp
    obtain ⟨rest, hrest⟩ := (HasPrefix_iff _ _).mp hp
    rw [extractApiKey_of_bearer r hx rest hrest]
    exact bearer_rest_not_blank _ rest hrest
  refine ⟨⟨?_, ?_⟩, hbear, ?_, ?_⟩
  · intro h0
    by_cases hx : TrimSpace (r.Header.Get "x-api-key") = ""
    · refine ⟨hx, ?_⟩
      cases hp : HasPrefix (TrimSpace (r.Header.Get "Authorization")) "Bearer " with
      | false => rfl
      | true => exact absurd h0 (hbear hx hp)
    · rw [extractApiKey_of_key r hx] at h0
      exact absurd h0 hx
  · rintro ⟨hx, hp⟩
    exact extractApiKey_of_none r hx hp
  · intro h
    by_cases hx : TrimSpace (r.Header.Get "x-api-key") = ""
    · cases hp : HasPrefix (TrimSpace (r.Header.Get "Authorization")) "Bearer " with
      | false =>
        exact absurd (by rw [extractApiKey_of_none r hx hp]) h
      | true =>
        obtain ⟨rest, hrest⟩ := (HasPrefix_iff _ _).mp hp
        have he := extractApiKey_of_bearer r hx rest hrest
        have key : ∀ (s : String) (hs : s.data ≠ []), s = TrimSpace rest →
            isSpace (s.data.head hs) = false ∧ isSpace (s.data.getLast hs) = false := by
          intro s hs heq
          subst heq
          exact ⟨TrimSpace_head rest hs, TrimSpace_getLast rest hs⟩
        exact key _ h he
    · have he := extractApiKey_of_key r hx
      have key : ∀ (s : String) (hs : s.data ≠ []), s = TrimSpace (r.Header.Get "x-api-key") →
          isSpace (s.data.head hs) = false ∧ isSpace (s.data.getLast hs) = false := by
        intro s hs heq
        subst heq
        exact ⟨TrimSpace_head _ hs, TrimSpace_getLast _ hs⟩
      exact key _ h he
  · intro ws hws hx ha st f next hdr
    apply ApiKeyAuth_missing
    apply extractApiKey_of_none r hx
    rw [ha, TrimSpace_bearer_blank ws hws]
    decide

/-- C10, on a request whose bearer token is blank. -/
theorem C10_extractApiKey_empty_iff_witness :
    extractApiKey ⟨[("Authorization", ["Bearer  \t "])]⟩ = "" ∧
      (ApiKeyAuth sample.db none sample.okHandler ⟨[], none, ""⟩
        ⟨[("Authorization", ["Bearer  \t "])]⟩).2 = [] :=
  ⟨(C10_extractApiKey_empty_iff ⟨[("Authorization", ["Bearer  \t "])]⟩).1.mpr (by decide),
   by rw [(C10_extractApiKey_empty_iff ⟨[("Authorization", ["Bearer  \t "])]⟩).2.2.2
        " \t " (by decide) (by decide) (by decide) sample.db none
        sample.okHandler []]⟩

end middleware
/-! ## Lemmas on the store -/

namespace store

theorem le_foldr_max (seq : Int) (ids : List Int) :
    seq ≤ ids.foldr max seq ∧ ∀ x ∈ ids, x ≤ ids.foldr max seq := by
  induction ids with
  | nil => simp
  | cons a t ih =>
    simp only [List.foldr_cons, List.mem_cons, forall_eq_or_imp]
    refine ⟨le_trans ih.1 (le_max_right _ _), le_max_left _ _, ?_⟩
    intro x hx
    exact le_trans (ih.2 x hx) (le_max_right _ _)

/-- A fresh rowid is larger than every id of the table and than the
sequence. -/
theorem newRowid_gt (seq : Int) (ids : List Int) (id : Int)
    (h : newRowid seq ids = .ok id) : seq < id ∧ ∀ x ∈ ids, x < id := by
  unfold newRowid at h
  simp only at h
  split at h
  · injection h with h
    subst h
    have := le_foldr_max seq ids
    exact ⟨by omega, fun x hx => by have := this.2 x hx; omega⟩
  · cases h

theorem insertAccount_ok (s : Store) (now : Time) (f : Fault) (acc : Account) (id : Int)
    (s1 : Store) (h : insertAccount s now f acc = .ok (id, s1)) :
    f = none ∧ (∀ r ∈ s.accounts, r.id < id) ∧
    s1 = { s with accounts := s.accounts ++ [newAccountRow id now acc],
                  accounts_seq := id } := by
  unfold insertAccount at h
  cases f with
  | some msg => cases h
  | none =>
    simp only at h
    cases hn : newRowid s.accounts_seq (s.accounts.map (·.id)) with
    | error e => simp [hn] at h
    | ok i =>
      simp only [hn, Except.ok.injEq, Prod.mk.injEq] at h
      obtain ⟨rfl, rfl⟩ := h
      refine ⟨rfl, ?_, rfl⟩
      intro r hr
      exact (newRowid_gt _ _ _ hn).2 _ (List.mem_map_of_mem _ hr)

theorem insertApiKey_ok (s : Store) (now : Time) (f : Fault) (key : ApiKey) (id : Int)
    (s1 : Store) (h : insertApiKey s now f key = .ok (id, s1)) :
    f = none ∧ (∀ r ∈ s.api_keys, r.id < id) ∧ (∀ r ∈ s.api_keys, r.key_hash ≠ key.KeyHash) ∧
    s1 = { s with api_keys := s.api_keys ++ [newApiKeyRow id now key],
                  api_keys_seq := id } := by
  unfold insertApiKey at h
  cases f with
  | some msg => cases h
  | none =>
    simp only at h
    cases hn : newRowid s.api_keys_seq (s.api_keys.map (·.id)) with
    | error e => simp [hn] at h
    | ok i =>
      simp only [hn] at h
      split at h
      · cases h
      · rename_i hany
        simp only [Except.ok.injEq, Prod.mk.injEq] at h
        obtain ⟨rfl, rfl⟩ := h
        refine ⟨rfl, ?_, ?_, rfl⟩
        · intro r hr
          exact (newRowid_gt _ _ _ hn).2 _ (List.mem_map_of_mem _ hr)
        · intro r hr heq
          apply hany
          simp only [List.any_eq_true, decide_eq_true_eq]
          exact ⟨r, hr, heq⟩

theorem find?_append_fresh {α : Type} (l : List α) (p : α → Bool) (x : α)
    (hl : ∀ r ∈ l, p r = false) (hx : p x = true) : (l ++ [x]).find? p = some x := by
  induction l with
  | nil => simp [hx]
  | cons a t ih =>
    have ha := hl a (List.mem_cons_self _ _)
    simp only [List.cons_append, List.find?_cons, ha]
    exact ih fun r hr => hl r (List.mem_cons_of_mem _ hr)

theorem countP_eq_zero_iff_ids (l : List ApiKeyRow) (id : Int) :
    l.countP (fun r => decide (r.id = id)) = 0 ↔ ∀ r ∈ l, r.id ≠ id := by
  rw [List.countP_eq_zero]
  simp

theorem map_id_of_absent {α : Type} (l : List α) (p : α → Prop) [DecidablePred p] (g : α → α)
    (h : ∀ r ∈ l, ¬ p r) : l.map (fun r => if p r then g r else r) = l := by
  induction l with
  | nil => rfl
  | cons a t ih =>
    simp only [List.map_cons, if_neg (h a (List.mem_cons_self _ _))]
    rw [ih fun r hr => h r (List.mem_cons_of_mem _ hr)]

theorem filter_ne_of_absent (l : List ApiKeyRow) (id : Int) (h : ∀ r ∈ l, r.id ≠ id) :
    l.filter (fun r => decide (r.id ≠ id)) = l := by
  rw [List.filter_eq_self]
  intro r hr
  simpa using h r hr

theorem countP_id_le_one (l : List ApiKeyRow) (id : Int) (hnd : (l.map (·.id)).Nodup) :
    l.countP (fun r => decide (r.id = id)) ≤ 1 := by
  have h1 := List.nodup_iff_count_le_one.mp hnd id
  have h2 : List.count id (l.map (·.id)) = l.countP (fun r => decide (r.id = id)) := by
    rw [List.count, List.countP_map]
    congr 1
  omega

end store
/-! ## Claims on the store -/

namespace store

/-- C6. With the medium answering, `UpdateApiKeyEnabled id e` and
`DeleteApiKey id` return `sql.ErrNoRows` exactly when `api_keys` has no row
with that id, and then the database is unchanged. When such a row exists both
return no error; the update leaves every table as it was except that the rows
of that id have `enabled = e`, the delete leaves every table as it was except
that the rows of that id are gone; under the schema's primary key that is
exactly one row. -/
theorem C6_api_key_not_found (s : Store) (id : Int) (e : Bool) :
    ((UpdateApiKeyEnabled s none id e).1 = some .ErrNoRows ↔ ∀ r ∈ s.api_keys, r.id ≠ id) ∧
    ((DeleteApiKey s none id).1 = some .ErrNoRows ↔ ∀ r ∈ s.api_keys, r.id ≠ id) ∧
    ((∀ r ∈ s.api_keys, r.id ≠ id) →
      (UpdateApiKeyEnabled s none id e).2 = s ∧ (DeleteApiKey s none id).2 = s) ∧
    ((∃ r ∈ s.api_keys, r.id = id) →
      (UpdateApiKeyEnabled s none id e).1 = none ∧ (DeleteApiKey s none id).1 = none ∧
      (UpdateApiKeyEnabled s none id e).2 =
        { s with api_keys := s.api_keys.map fun r =>
            if r.id = id then { r with enabled := e } else r } ∧
      (DeleteApiKey s none id).2 =
        { s with api_keys := s.api_keys.filter fun r => r.id ≠ id } ∧
      (WF s → (s.api_keys.filter fun r => r.id = id).length = 1 ∧
        (DeleteApiKey s none id).2.api_keys.length + 1 = s.api_keys.length)) := by
  have hc := countP_eq_zero_iff_ids s.api_keys id
  refine ⟨?_, ?_, ?_, ?_⟩
  · rw [← hc]
    unfold UpdateApiKeyEnabled
    by_cases h0 : s.api_keys.countP (fun r => decide (r.id = id)) = 0
    · simp [h0]
    · simp [h0]
  · rw [← hc]
    unfold DeleteApiKey
    by_cases h0 : s.api_keys.countP (fun r => decide (r.id = id)) = 0
    · simp [h0]
    · simp [h0]
  · intro habs
    have h0 := hc.mpr habs
    constructor
    · simp only [UpdateApiKeyEnabled, h0, if_true]
      rw [map_id_of_absent s.api_keys (fun r => r.id = id) _ habs]
    · simp only [DeleteApiKey, h0, if_true]
      rw [filter_ne_of_absent s.api_keys id habs]
  · rintro ⟨r, hr, hid⟩
    have h0 : s.api_keys.countP (fun r => decide (r.id = id)) ≠ 0 := by
      intro h
      exact hc.mp h r hr hid
    refine ⟨by simp [UpdateApiKeyEnabled, h0], by simp [DeleteApiKey, h0],
      by simp [UpdateApiKeyEnabled, h0], by simp [DeleteApiKey, h0], ?_⟩
    intro hwf
    have hle := countP_id_le_one s.api_keys id hwf.2.2.1
    have hone : s.api_keys.countP (fun r => decide (r.id = id)) = 1 := by omega
    have hlen := List.length_eq_countP_add_countP (fun r : ApiKeyRow => decide (r.id = id))
      s.api_keys
    rw [hone] at hlen
    constructor
    · rw [← List.countP_eq_length_filter]
      exact hone
    · simp only [DeleteApiKey, h0, if_false]
      rw [← List.countP_eq_length_filter]
      have : (fun r : ApiKeyRow => decide (r.id ≠ id)) =
          (fun r : ApiKeyRow => !decide (r.id = id)) := by
        funext r
        simp
      rw [this]
      simp only [Bool.not_eq_true, Bool.decide_eq_false] at hlen
      simp only [Bool.not_eq_eq_eq_not, Bool.not_true, decide_eq_false_iff_not] at *
      omega

/-- C6, on the sample store: key 2 exists, key 7 does not. -/
theorem C6_api_key_not_found_witness :
    (UpdateApiKeyEnabled sample.db none 7 true).2 = sample.db ∧
      (DeleteApiKey sample.db none 7).2 = sample.db ∧
      (UpdateApiKeyEnabled sample.db none 2 true).1 = none ∧
      (DeleteApiKey sample.db none 2).1 = none :=
  ⟨((C6_api_key_not_found sample.db 7 true).2.2.1 (by decide)).1,
   ((C6_api_key_not_found sample.db 7 true).2.2.1 (by decide)).2,
   ((C6_api_key_not_found sample.db 2 true).2.2.2 (by decide)).1,
   ((C6_api_key_not_found sample.db 2 true).2.2.2 (by decide)).2.1⟩

end store
/-! ## Lemmas on settings -/

namespace store

theorem upsertSetting_cons_ne (a : SettingsRow) (t : List SettingsRow) (k v : String)
    (h : a.key ≠ k) : upsertSetting (a :: t) k v = a :: upsertSetting t k v := by
  unfold upsertSetting
  simp only [List.any_cons, h, decide_False, Bool.false_or, List.map_cons, if_false]
  split <;> simp

theorem upsertSetting_cons_eq (a : SettingsRow) (t : List SettingsRow) (k v : String)
    (h : a.key = k) :
    upsertSetting (a :: t) k v =
      { a with value := v } :: t.map fun r => if r.key = k then { r with value := v } else r := by
  unfold upsertSetting
  simp [h]

theorem find?_upsertSetting_same (l : List SettingsRow) (k v : String) :
    (upsertSetting l k v).find? (fun r => decide (r.key = k)) = some ⟨k, v⟩ := by
  induction l with
  | nil => simp [upsertSetting]
  | cons a t ih =>
    by_cases h : a.key = k
    · rw [upsertSetting_cons_eq a t k v h]
      simp [h]
    · rw [upsertSetting_cons_ne a t k v h, List.find?_cons_of_neg _ (by simpa using h)]
      exact ih

theorem find?_map_value_other (l : List SettingsRow) (k v k1 : String) (hk : k1 ≠ k) :
    (l.map fun r => if r.key = k then { r with value := v } else r).find?
        (fun r => decide (r.key = k1)) = l.find? (fun r => decide (r.key = k1)) := by
  induction l with
  | nil => rfl
  | cons a t ih =>
    by_cases h : a.key = k
    · have h1 : a.key ≠ k1 := fun h2 => hk (h2.symm.trans h)
      rw [List.map_cons, if_pos h, List.find?_cons_of_neg _ (by simpa using h1),
        List.find?_cons_of_neg _ (by simpa using h1)]
      exact ih
    · simp only [List.map_cons, h, if_false, List.find?_cons]
      rw [ih]

theorem find?_upsertSetting_other (l : List SettingsRow) (k v k1 : String) (hk : k1 ≠ k) :
    (upsertSetting l k v).find? (fun r => decide (r.key = k1)) =
      l.find? (fun r => decide (r.key = k1)) := by
  induction l with
  | nil =>
    simp only [upsertSetting, List.any_nil, Bool.false_eq_true, if_false, List.nil_append]
    rw [List.find?_cons_of_neg _ (by simpa using hk.symm)]
  | cons a t ih =>
    by_cases h : a.key = k
    · rw [upsertSetting_cons_eq a t k v h]
      have h1 : a.key ≠ k1 := fun h2 => hk (h2.symm.trans h)
      rw [List.find?_cons_of_neg _ (by simpa using h1),
        List.find?_cons_of_neg _ (by simpa using h1)]
      exact find?_map_value_other t k v k1 hk
    · rw [upsertSetting_cons_ne a t k v h]
      simp only [List.find?_cons]
      rw [ih]

theorem keys_map_value (l : List SettingsRow) (k v : String) :
    (l.map fun r => if r.key = k then { r with value := v } else r).map (·.key) =
      l.map (·.key) := by
  induction l with
  | nil => rfl
  | cons a t ih =>
    simp only [List.map_cons, ih]
    by_cases h : a.key = k <;> simp [h]

theorem keys_upsertSetting (l : List SettingsRow) (k v : String) :
    (upsertSetting l k v).map (·.key) =
      if k ∈ l.map (·.key) then l.map (·.key) else l.map (·.key) ++ [k] := by
  unfold upsertSetting
  by_cases h : k ∈ l.map (·.key)
  · have hany : (l.any fun r => decide (r.key = k)) = true := by
      obtain ⟨r, hr, hrk⟩ := List.mem_map.mp h
      simp only [List.any_eq_true, decide_eq_true_eq]
      exact ⟨r, hr, hrk⟩
    rw [if_pos hany, if_pos h]
    exact keys_map_value l k v
  · have hany : ¬ (l.any fun r => decide (r.key = k)) = true := by
      intro hany
      simp only [List.any_eq_true, decide_eq_true_eq] at hany
      obtain ⟨r, hr, hrk⟩ := hany
      exact h (List.mem_map.mpr ⟨r, hr, hrk⟩)
    rw [if_neg hany, if_neg h]
    simp

theorem nodup_keys_upsertSetting (l : List SettingsRow) (k v : String)
    (h : (l.map (·.key)).Nodup) : ((upsertSetting l k v).map (·.key)).Nodup := by
  rw [keys_upsertSetting]
  split
  · exact h
  · rename_i hk
    rw [List.nodup_append]
    refine ⟨h, List.nodup_singleton k, ?_⟩
    intro x hx hx2
    rw [List.mem_singleton] at hx2
    exact hk (hx2 ▸ hx)

theorem mem_keys_upsertSetting (l : List SettingsRow) (k v : String) :
    k ∈ (upsertSetting l k v).map (·.key) := by
  rw [keys_upsertSetting]
  split
  · assumption
  · simp

/-- Under key uniqueness a key occurs in at most one row. -/
theorem count_key_of_nodup (l : List SettingsRow) (k : String) (hnd : (l.map (·.key)).Nodup)
    (hk : k ∈ l.map (·.key)) : (l.filter fun r => decide (r.key = k)).length = 1 := by
  rw [← List.countP_eq_length_filter]
  have h1 := List.nodup_iff_count_le_one.mp hnd k
  have h2 : List.count k (l.map (·.key)) = l.countP (fun r => decide (r.key = k)) := by
    rw [List.count, List.countP_map]
    congr 1
  have h3 : 0 < List.count k (l.map (·.key)) := List.count_pos_iff.mpr hk
  omega

theorem GetSetting_absent (s : Store) (k : String) (h : ∀ r ∈ s.settings, r.key ≠ k) :
    GetSetting s none k = ("", none) := by
  unfold GetSetting
  have : s.settings.find? (fun r => decide (r.key = k)) = none := by
    rw [List.find?_eq_none]
    intro r hr
    simpa using h r hr
  simp [this]

end store
/-! ## The effect of each call on the tables -/

namespace store

theorem CreateAccount_state (s : Store) (now : Time) (f : Fault) (acc : Account) :
    (CreateAccount s now f acc).2.2 = s ∨
      ∃ id, (∀ r ∈ s.accounts, r.id < id) ∧
        (CreateAccount s now f acc).2.2 =
          { s with accounts := s.accounts ++ [newAccountRow id now acc], accounts_seq := id } := by
  unfold CreateAccount
  cases h : insertAccount s now f acc with
  | error e => exact Or.inl rfl
  | ok p =>
    obtain ⟨id, s1⟩ := p
    obtain ⟨_, hlt, hs1⟩ := insertAccount_ok s now f acc id s1 h
    exact Or.inr ⟨id, hlt, hs1⟩

theorem CreateApiKey_state (s : Store) (now : Time) (f1 f2 : Fault) (key : ApiKey) :
    (CreateApiKey s now f1 f2 key).2.2 =
      match insertApiKey s now f1 key with
      | .error _ => s
      | .ok (_, s1) => s1 := by
  unfold CreateApiKey
  cases h : insertApiKey s now f1 key with
  | error e => rfl
  | ok p =>
    obtain ⟨id, s1⟩ := p
    simp only
    cases f2 with
    | some msg => rfl
    | none =>
      simp only
      split <;> rfl

theorem DeleteApiKey_state (s : Store) (f : Fault) (id : Int) :
    (DeleteApiKey s f id).2 =
      match f with
      | some _ => s
      | none => { s with api_keys := s.api_keys.filter fun r => r.id ≠ id } := by
  unfold DeleteApiKey
  cases f with
  | some msg => rfl
  | none =>
    simp only
    split <;> rfl

theorem UpdateApiKeyEnabled_state (s : Store) (f : Fault) (id : Int) (e : Bool) :
    (UpdateApiKeyEnabled s f id e).2 =
      match f with
      | some _ => s
      | none => { s with api_keys := s.api_keys.map fun r =>
          if r.id = id then { r with enabled := e } else r } := by
  unfold UpdateApiKeyEnabled
  cases f with
  | some msg => rfl
  | none =>
    simp only
    split <;> rfl

theorem nodup_map_append_fresh {α : Type} (l : List α) (x : α) (proj : α → Int)
    (hnd : (l.map proj).Nodup) (hlt : ∀ r ∈ l, proj r < proj x) :
    ((l ++ [x]).map proj).Nodup := by
  rw [List.map_append, List.nodup_append]
  refine ⟨hnd, by simp, ?_⟩
  intro a ha hb
  simp only [List.map_cons, List.map_nil, List.mem_singleton] at hb
  obtain ⟨r, hr, hra⟩ := List.mem_map.mp ha
  have := hlt r hr
  omega

theorem nodup_map_filter {α β : Type} (l : List α) (p : α → Bool) (proj : α → β)
    (hnd : (l.map proj).Nodup) : ((l.filter p).map proj).Nodup :=
  List.Nodup.sublist (List.Sublist.map proj (List.filter_sublist l)) hnd

/-- Every call of the store keeps the schema's constraints. -/
theorem WF_apply (s : Store) (op : Op) (hwf : WF s) : WF (Op.apply s op) := by
  obtain ⟨ha, hs, hki, hkh⟩ := hwf
  cases op with
  | CreateAccount now f acc =>
    simp only [Op.apply]
    rcases CreateAccount_state s now f acc with h | ⟨id, hlt, h⟩
    · rw [h]; exact ⟨ha, hs, hki, hkh⟩
    · rw [h]
      exact ⟨nodup_map_append_fresh _ _ (fun r : AccountRow => r.id) ha hlt, hs, hki, hkh⟩
  | UpdateAccount now f acc =>
    simp only [Op.apply, UpdateAccount]
    cases f with
    | some msg => exact ⟨ha, hs, hki, hkh⟩
    | none =>
      refine ⟨?_, hs, hki, hkh⟩
      convert ha using 1
      rw [List.map_map]
      apply List.map_congr_left
      intro r _
      simp only [Function.comp]
      split <;> rfl
  | DeleteAccount f id =>
    simp only [Op.apply, DeleteAccount]
    cases f with
    | some msg => exact ⟨ha, hs, hki, hkh⟩
    | none => exact ⟨nodup_map_filter _ _ _ ha, hs, hki, hkh⟩
  | IncrementRequestCount now f id =>
    simp only [Op.apply, IncrementRequestCount]
    cases f with
    | some msg => exact ⟨ha, hs, hki, hkh⟩
    | none =>
      refine ⟨?_, hs, hki, hkh⟩
      convert ha using 1
      rw [List.map_map]
      apply List.map_congr_left
      intro r _
      simp only [Function.comp]
      split <;> rfl
  | SetSetting f key value =>
    simp only [Op.apply, SetSetting]
    cases f with
    | some msg => exact ⟨ha, hs, hki, hkh⟩
    | none => exact ⟨ha, nodup_keys_upsertSetting _ _ _ hs, hki, hkh⟩
  | CreateApiKey now f1 f2 key =>
    simp only [Op.apply, CreateApiKey_state]
    cases h : insertApiKey s now f1 key with
    | error e => exact ⟨ha, hs, hki, hkh⟩
    | ok p =>
      obtain ⟨id, s1⟩ := p
      obtain ⟨_, hlt, hne, hs1⟩ := insertApiKey_ok s now f1 key id s1 h
      simp only [hs1]
      refine ⟨ha, hs, nodup_map_append_fresh _ _ (fun r : ApiKeyRow => r.id) hki hlt, ?_⟩
      simp only
      rw [List.map_append, List.nodup_append]
      refine ⟨hkh, by simp, ?_⟩
      intro a hin hb
      simp only [List.map_cons, List.map_nil, List.mem_singleton] at hb
      obtain ⟨r, hr, hra⟩ := List.mem_map.mp hin
      exact hne r hr (hra.trans hb)
  | UpdateApiKeyEnabled f id e =>
    simp only [Op.apply, UpdateApiKeyEnabled_state]
    cases f with
    | some msg => exact ⟨ha, hs, hki, hkh⟩
    | none =>
      refine ⟨ha, hs, ?_, ?_⟩
      · convert hki using 1
        rw [List.map_map]
        apply List.map_congr_left
        intro r _
        simp only [Function.comp]
        split <;> rfl
      · convert hkh using 1
        rw [List.map_map]
        apply List.map_congr_left
        intro r _
        simp only [Function.comp]
        split <;> rfl
  | UpdateApiKeyLastUsed now f id =>
    simp only [Op.apply, UpdateApiKeyLastUsed]
    cases f with
    | some msg => exact ⟨ha, hs, hki, hkh⟩
    | none =>
      refine ⟨ha, hs, ?_, ?_⟩
      · convert hki using 1
        rw [List.map_map]
        apply List.map_congr_left
        intro r _
        simp only [Function.comp]
        split <;> rfl
      · convert hkh using 1
        rw [List.map_map]
        apply List.map_congr_left
        intro r _
        simp only [Function.comp]
        split <;> rfl
  | DeleteApiKey f id =>
    simp only [Op.apply, DeleteApiKey_state]
    cases f with
    | some msg => exact ⟨ha, hs, hki, hkh⟩
    | none => exact ⟨ha, hs, nodup_map_filter _ _ _ hki, nodup_map_filter _ _ _ hkh⟩

theorem run_append (ops : List Op) (op : Op) : run (ops ++ [op]) = Op.apply (run ops) op := by
  simp [run, List.foldl_append]

theorem WF_empty : WF Store.empty := by decide

/-- Every reachable database satisfies the schema's constraints. -/
theorem WF_run (ops : List Op) : WF (run ops) := by
  induction ops using List.reverseRecOn with
  | nil => exact WF_empty
  | append_singleton l op ih =>
    rw [run_append]
    exact WF_apply _ op ih

end store
namespace store

/-- Only `SetSetting` touches table `settings`. -/
theorem settings_apply (s : Store) (op : Op) (h : ∀ f k v, op ≠ .SetSetting f k v) :
    (Op.apply s op).settings = s.settings := by
  cases op with
  | CreateAccount now f acc =>
    simp only [Op.apply]
    rcases CreateAccount_state s now f acc with h | ⟨id, _, h⟩ <;> rw [h]
  | UpdateAccount now f acc =>
    simp only [Op.apply, UpdateAccount]
    cases f <;> rfl
  | DeleteAccount f id =>
    simp only [Op.apply, DeleteAccount]
    cases f <;> rfl
  | IncrementRequestCount now f id =>
    simp only [Op.apply, IncrementRequestCount]
    cases f <;> rfl
  | SetSetting f key value => exact absurd rfl (h f key value)
  | CreateApiKey now f1 f2 key =>
    simp only [Op.apply, CreateApiKey_state]
    cases h : insertApiKey s now f1 key with
    | error e => rfl
    | ok p =>
      obtain ⟨id, s1⟩ := p
      obtain ⟨_, _, _, hs1⟩ := insertApiKey_ok s now f1 key id s1 h
      simp only [hs1]
  | UpdateApiKeyEnabled f id e =>
    simp only [Op.apply, UpdateApiKeyEnabled_state]
    cases f <;> rfl
  | UpdateApiKeyLastUsed now f id =>
    simp only [Op.apply, UpdateApiKeyLastUsed]
    cases f <;> rfl
  | DeleteApiKey f id =>
    simp only [Op.apply, DeleteApiKey_state]
    cases f <;> rfl

/-- Every key of table `settings` was written by a `SetSetting` of the
history. -/
theorem settings_keys_run (ops : List Op) :
    ∀ r ∈ (run ops).settings, ∃ f v, Op.SetSetting f r.key v ∈ ops := by
  induction ops using List.reverseRecOn with
  | nil => intro r hr; cases hr
  | append_singleton l op ih =>
    intro r hr
    rw [run_append] at hr
    by_cases hop : ∀ f k v, op ≠ .SetSetting f k v
    · rw [settings_apply _ _ hop] at hr
      obtain ⟨f, v, hm⟩ := ih r hr
      exact ⟨f, v, List.mem_append_left _ hm⟩
    · push_neg at hop
      obtain ⟨f, k, v, rfl⟩ := hop
      cases f with
      | some msg =>
        simp only [Op.apply, SetSetting] at hr
        obtain ⟨f, v, hm⟩ := ih r hr
        exact ⟨f, v, List.mem_append_left _ hm⟩
      | none =>
        simp only [Op.apply, SetSetting] at hr
        have hk : r.key ∈ (upsertSetting (run l).settings k v).map (·.key) :=
          List.mem_map_of_mem _ hr
        rw [keys_upsertSetting] at hk
        split at hk
        · obtain ⟨r0, hr0, hkey⟩ := List.mem_map.mp hk
          obtain ⟨f, v1, hm⟩ := ih r0 hr0
          exact ⟨f, v1, List.mem_append_left _ (hkey ▸ hm)⟩
        · rcases List.mem_append.mp hk with hk | hk
          · obtain ⟨r0, hr0, hkey⟩ := List.mem_map.mp hk
            obtain ⟨f, v1, hm⟩ := ih r0 hr0
            exact ⟨f, v1, List.mem_append_left _ (hkey ▸ hm)⟩
          · rw [List.mem_singleton] at hk
            exact ⟨none, v, List.mem_append_right _ (by simp [hk])⟩

/-- C7. With the medium answering: `SetSetting k v1` then `SetSetting k v2`
both succeed, and then `GetSetting k` returns `v2` without error; on a
database satisfying its schema exactly one row of `settings` has key `k`
afterwards; `GetSetting` of any other key returns what it returned before.
`GetSetting` of a key that no `SetSetting` of the history wrote, or more
generally of a key without row, returns the empty string without error. -/
theorem C7_setting_last_write_wins (s : Store) (k v1 v2 : String) :
    (SetSetting s none k v1).1 = none ∧
    (SetSetting (SetSetting s none k v1).2 none k v2).1 = none ∧
    GetSetting (SetSetting (SetSetting s none k v1).2 none k v2).2 none k = (v2, none) ∧
    (WF s →
      ((SetSetting (SetSetting s none k v1).2 none k v2).2.settings.filter
        fun r => r.key = k).length = 1) ∧
    (∀ k1, k1 ≠ k →
      GetSetting (SetSetting (SetSetting s none k v1).2 none k v2).2 none k1 =
        GetSetting s none k1) ∧
    (∀ ops k1, (∀ f v, Op.SetSetting f k1 v ∉ ops) →
      GetSetting (run ops) none k1 = ("", none)) ∧
    (∀ k1, (∀ r ∈ s.settings, r.key ≠ k1) → GetSetting s none k1 = ("", none)) := by
  refine ⟨rfl, rfl, ?_, ?_, ?_, ?_, ?_⟩
  · simp only [GetSetting, SetSetting, find?_upsertSetting_same]
  · intro hwf
    simp only [SetSetting]
    apply count_key_of_nodup
    · exact nodup_keys_upsertSetting _ _ _ (nodup_keys_upsertSetting _ _ _ hwf.2.1)
    · exact mem_keys_upsertSetting _ _ _
  · intro k1 hk
    simp only [GetSetting, SetSetting, find?_upsertSetting_other _ _ _ _ hk]
  · intro ops k1 hno
    apply GetSetting_absent
    intro r hr hk
    obtain ⟨f, v, hm⟩ := settings_keys_run ops r hr
    exact hno f v (hk ▸ hm)
  · intro k1 h
    exact GetSetting_absent s k1 h

/-- C7, on the sample store, which has no setting. -/
theorem C7_setting_last_write_wins_witness :
    WF sample.db ∧
      ((SetSetting (SetSetting sample.db none "mode" "a").2 none "mode" "b").2.settings.filter
        fun r => r.key = "mode").length = 1 ∧
      GetSetting sample.db none "theme" = ("", none) :=
  ⟨by decide,
   (C7_setting_last_write_wins sample.db "mode" "a" "b").2.2.2.1 (by decide),
   (C7_setting_last_write_wins sample.db "mode" "a" "b").2.2.2.2.2.2 "theme" (by decide)⟩

end store
namespace store

theorem find?_map_accounts (l : List AccountRow) (id : Int) (g : AccountRow → AccountRow)
    (hg : ∀ r, (g r).id = r.id) :
    (l.map g).find? (fun r => decide (r.id = id)) =
      (l.find? (fun r => decide (r.id = id))).map g := by
  induction l with
  | nil => rfl
  | cons a t ih =>
    by_cases h : a.id = id
    · have h1 : (g a).id = id := by rw [hg]; exact h
      simp [h, h1]
    · have h1 : (g a).id ≠ id := by rw [hg]; exact h
      rw [List.map_cons, List.find?_cons_of_neg _ (by simpa using h1),
        List.find?_cons_of_neg _ (by simpa using h), ih]

theorem GetAccount_ok_iff (s : Store) (id : Int) (b : Account) :
    GetAccount s none id = .ok b ↔
      ∃ r, s.accounts.find? (fun r => decide (r.id = id)) = some r ∧ scanAccount r = .ok b := by
  unfold GetAccount
  cases h : s.accounts.find? (fun r => decide (r.id = id)) with
  | none => simp
  | some r => simp

/-- C8, as stated, fails: an account created with request counter 5 is read
back with request counter 0. -/
theorem C8_get_after_create_counterexample :
    (CreateAccount Store.empty 102 none sample.acct).1 = none ∧
      sample.acct.RequestCount = 5 ∧
      GetAccount (CreateAccount Store.empty 102 none sample.acct).2.2 none
          (CreateAccount Store.empty 102 none sample.acct).2.1.ID =
        .ok
          { ID := 1, Name := "pool-1", SessionID := "sess", ClientCookie := "cookie",
            ClientUat := "uat", ProjectID := "proj", UserID := "user", AgentMode := "",
            Email := "a@example.org", Weight := 3, Enabled := true, RequestCount := 0,
            LastUsedAt := 0, CreatedAt := 102, UpdatedAt := 102 } := by
  refine ⟨by decide, by decide, ?_⟩
  rfl

/-- C8, amended. When `CreateAccount a` returns no error, `GetAccount` of the
assigned id, with the medium answering, returns `a` with the id replaced by
the assigned one, the request counter replaced by 0, `LastUsedAt` by the zero
time and `CreatedAt`, `UpdatedAt` by the time of creation: name, session id,
both tokens, project id, user id, agent mode, email, weight and enabled are
the input's. The assigned id is larger than every id of the table. -/
theorem C8_get_after_create_amended (s : Store) (now : Time) (f : Fault) (a : Account)
    (h : (CreateAccount s now f a).1 = none) :
    GetAccount (CreateAccount s now f a).2.2 none (CreateAccount s now f a).2.1.ID =
      .ok { a with
            ID := (CreateAccount s now f a).2.1.ID, RequestCount := 0,
            LastUsedAt := 0, CreatedAt := now, UpdatedAt := now } ∧
    ∀ r ∈ s.accounts, r.id < (CreateAccount s now f a).2.1.ID := by
  unfold CreateAccount at h ⊢
  cases hi : insertAccount s now f a with
  | error e => simp [hi] at h
  | ok p =>
    obtain ⟨id, s1⟩ := p
    obtain ⟨_, hlt, hs1⟩ := insertAccount_ok s now f a id s1 hi
    simp only [hs1]
    refine ⟨?_, hlt⟩
    unfold GetAccount
    simp only
    rw [find?_append_fresh s.accounts _ (newAccountRow id now a)
      (fun r hr => by have := hlt r hr; simp; omega) (by simp [newAccountRow])]
    rfl

/-- C8 amended, on the sample account. -/
theorem C8_get_after_create_amended_witness :
    (CreateAccount sample.db 103 none sample.acct).1 = none ∧
      GetAccount (CreateAccount sample.db 103 none sample.acct).2.2 none
          (CreateAccount sample.db 103 none sample.acct).2.1.ID =
        .ok { sample.acct with
              ID := (CreateAccount sample.db 103 none sample.acct).2.1.ID,
              RequestCount := 0, LastUsedAt := 0, CreatedAt := 103, UpdatedAt := 103 } :=
  ⟨by decide,
   (C8_get_after_create_amended sample.db 103 none sample.acct (by decide)).1⟩

theorem scanAccount_ok (r : AccountRow) (b : Account) (h : scanAccount r = .ok b) :
    r.request_count = .int b.RequestCount ∧
      b = { ID := r.id, Name := r.name, SessionID := r.session_id,
            ClientCookie := r.client_cookie, ClientUat := r.client_uat,
            ProjectID := r.project_id, UserID := r.user_id, AgentMode := r.agent_mode,
            Email := r.email, Weight := r.weight, Enabled := r.enabled,
            RequestCount := b.RequestCount,
            LastUsedAt := match r.last_used_at with
              | some t => t
              | none => 0,
            CreatedAt := r.created_at, UpdatedAt := r.updated_at } := by
  unfold scanAccount at h
  cases hc : r.request_count with
  | real => simp [hc] at h
  | int n =>
    simp only [hc, Except.ok.injEq] at h
    subst h
    exact ⟨rfl, rfl⟩

/-- At the limit of the 64-bit counter the increment still succeeds, and the
account can no longer be read. -/
theorem IncrementRequestCount_at_limit (s : Store) (now : Time) (id : Int) (b : Account)
    (hb : GetAccount s none id = .ok b) (hmax : ¬ b.RequestCount < maxInt64) :
    (IncrementRequestCount s now none id).1 = none ∧
      ∃ msg, GetAccount (IncrementRequestCount s now none id).2 none id =
        .error (.driver msg) := by
  obtain ⟨r, hr, hrb⟩ := (GetAccount_ok_iff s id b).mp hb
  have hid : r.id = id := by simpa using List.find?_some hr
  obtain ⟨hcnt, _⟩ := scanAccount_ok r b hrb
  refine ⟨rfl, ?_⟩
  simp only [IncrementRequestCount, GetAccount]
  rw [find?_map_accounts _ _ _ (fun r => by split <;> rfl), hr]
  simp [hid, scanAccount, hcnt, Counter.succ, hmax]

end store
/-! ## Key records and the history of calls -/

namespace store

theorem HasKey_iff_mem (s : Store) (i : Int) (h : String) :
    HasKey s i h ↔ (i, h) ∈ s.api_keys.map fun r => (r.id, r.key_hash) := by
  unfold HasKey
  rw [List.mem_map]
  constructor
  · rintro ⟨r, hr, rfl, rfl⟩
    exact ⟨r, hr, rfl⟩
  · rintro ⟨r, hr, heq⟩
    simp only [Prod.mk.injEq] at heq
    exact ⟨r, hr, heq.1, heq.2⟩

/-- A call that is neither `CreateApiKey` nor `DeleteApiKey` keeps the ids and
hashes of table `api_keys`. -/
theorem api_keys_apply_other (s : Store) (op : Op)
    (hc : ∀ now f1 f2 key, op ≠ .CreateApiKey now f1 f2 key)
    (hd : ∀ f j, op ≠ .DeleteApiKey f j) :
    ((Op.apply s op).api_keys.map fun r => (r.id, r.key_hash)) =
      s.api_keys.map fun r => (r.id, r.key_hash) := by
  cases op with
  | CreateAccount now f acc =>
    simp only [Op.apply]
    rcases CreateAccount_state s now f acc with h | ⟨id, _, h⟩ <;> rw [h]
  | UpdateAccount now f acc =>
    simp only [Op.apply, UpdateAccount]
    cases f <;> rfl
  | DeleteAccount f id =>
    simp only [Op.apply, DeleteAccount]
    cases f <;> rfl
  | IncrementRequestCount now f id =>
    simp only [Op.apply, IncrementRequestCount]
    cases f <;> rfl
  | SetSetting f key value =>
    simp only [Op.apply, SetSetting]
    cases f <;> rfl
  | CreateApiKey now f1 f2 key => exact absurd rfl (hc now f1 f2 key)
  | UpdateApiKeyEnabled f id e =>
    simp only [Op.apply, UpdateApiKeyEnabled_state]
    cases f with
    | some msg => rfl
    | none =>
      simp only
      rw [List.map_map]
      apply List.map_congr_left
      intro r _
      simp only [Function.comp]
      split <;> rfl
  | UpdateApiKeyLastUsed now f id =>
    simp only [Op.apply, UpdateApiKeyLastUsed]
    cases f with
    | some msg => rfl
    | none =>
      simp only
      rw [List.map_map]
      apply List.map_congr_left
      intro r _
      simp only [Function.comp]
      split <;> rfl
  | DeleteApiKey f id => exact absurd rfl (hd f id)

/-- One call: afterwards the table holds `(i, h)` exactly when the call
inserted it, or the table held it before and the call is not a successful
`DeleteApiKey i`. -/
theorem HasKey_apply (s : Store) (op : Op) (i : Int) (h : String) :
    HasKey (Op.apply s op) i h ↔
      (∃ now f1 f2 key s1, op = .CreateApiKey now f1 f2 key ∧
        insertApiKey s now f1 key = .ok (i, s1) ∧ key.KeyHash = h) ∨
      (HasKey s i h ∧ ¬ ∃ f, op = .DeleteApiKey f i ∧ (DeleteApiKey s f i).1 = none) := by
  by_cases hc : ∃ now f1 f2 key, op = .CreateApiKey now f1 f2 key
  · obtain ⟨now, f1, f2, key, rfl⟩ := hc
    simp only [Op.apply, CreateApiKey_state, reduceCtorEq, false_and, exists_false,
      not_false_eq_true, and_true]
    cases hi : insertApiKey s now f1 key with
    | error e =>
      simp only [Op.CreateApiKey.injEq]
      constructor
      · intro hk; exact Or.inr hk
      · rintro (⟨now1, g1, g2, key1, s1, ⟨rfl, rfl, _, rfl⟩, hins, _⟩ | hk)
        · rw [hi] at hins; cases hins
        · exact hk
    | ok p =>
      obtain ⟨j, s1⟩ := p
      obtain ⟨_, _, _, hs1⟩ := insertApiKey_ok s now f1 key j s1 hi
      simp only [Op.CreateApiKey.injEq]
      constructor
      · rintro ⟨r, hr, hri, hrh⟩
        rw [hs1] at hr
        simp only [List.mem_append, List.mem_singleton] at hr
        rcases hr with hr | hr
        · exact Or.inr ⟨r, hr, hri, hrh⟩
        · subst hr
          simp only [newApiKeyRow] at hri hrh
          subst hri
          exact Or.inl ⟨now, f1, f2, key, s1, ⟨rfl, rfl, rfl, rfl⟩, hi, hrh⟩
      · rintro (⟨now1, g1, g2, key1, s2, ⟨rfl, rfl, _, rfl⟩, hins, hkh⟩ | ⟨r, hr, hri, hrh⟩)
        · rw [hi] at hins
          simp only [Except.ok.injEq, Prod.mk.injEq] at hins
          obtain ⟨rfl, _⟩ := hins
          refine ⟨newApiKeyRow j now key, ?_, rfl, hkh⟩
          rw [hs1]
          simp
        · refine ⟨r, ?_, hri, hrh⟩
          rw [hs1]
          simp [hr]
  · by_cases hd : ∃ f j, op = .DeleteApiKey f j
    · obtain ⟨f, j, rfl⟩ := hd
      simp only [Op.apply, DeleteApiKey_state, reduceCtorEq, false_and, exists_false, false_or,
        Op.DeleteApiKey.injEq]
      cases f with
      | some msg =>
        constructor
        · intro hk
          refine ⟨hk, ?_⟩
          rintro ⟨g, ⟨rfl, _⟩, hg⟩
          simp [DeleteApiKey] at hg
        · exact fun hk => hk.1
      | none =>
        constructor
        · rintro ⟨r, hr, hri, hrh⟩
          simp only [List.mem_filter, decide_eq_true_eq] at hr
          refine ⟨⟨r, hr.1, hri, hrh⟩, ?_⟩
          rintro ⟨g, ⟨rfl, hji⟩, _⟩
          exact hr.2 (hri.trans hji.symm)
        · rintro ⟨⟨r, hr, hri, hrh⟩, hnd⟩
          refine ⟨r, ?_, hri, hrh⟩
          simp only [List.mem_filter, decide_eq_true_eq]
          refine ⟨hr, ?_⟩
          intro hrj
          apply hnd
          refine ⟨none, ⟨rfl, hri ▸ hrj.symm⟩, ?_⟩
          have h0 : s.api_keys.countP (fun r => decide (r.id = i)) ≠ 0 := by
            intro hz
            exact (countP_eq_zero_iff_ids _ _).mp hz r hr hri
          simp [DeleteApiKey, h0]
    · push_neg at hc hd
      have hsame := api_keys_apply_other s op hc hd
      rw [HasKey_iff_mem, HasKey_iff_mem, hsame]
      constructor
      · intro hk
        refine Or.inr ⟨hk, ?_⟩
        rintro ⟨f, hop, _⟩
        exact hd f i hop
      · rintro (⟨now, f1, f2, key, _, hop, _⟩ | ⟨hk, _⟩)
        · exact absurd hop (hc now f1 f2 key)
        · exact hk

end store
namespace store

theorem run_nil : run [] = Store.empty := rfl

theorem snoc_eq_append_cons {ops pre post : List Op} {op c : Op}
    (h : ops ++ [op] = pre ++ c :: post) :
    (post = [] ∧ ops = pre ∧ op = c) ∨
      ∃ post1, post = post1 ++ [op] ∧ ops = pre ++ c :: post1 := by
  rcases List.eq_nil_or_concat post with rfl | ⟨post1, x, hx⟩
  · have := List.append_inj' h rfl
    simp only [List.cons.injEq, and_true] at this
    exact Or.inl ⟨rfl, this.1, this.2⟩
  · rw [List.concat_eq_append] at hx
    subst hx
    have h2 : ops ++ [op] = (pre ++ c :: post1) ++ [x] := by
      rw [h]; simp
    have := List.append_inj' h2 rfl
    simp only [List.cons.injEq, and_true] at this
    exact Or.inr ⟨post1, by rw [this.2], this.1⟩

/-- The history predicate, one call later. -/
theorem StoredLive_snoc (ops : List Op) (op : Op) (i : Int) (h : String) :
    StoredLive (ops ++ [op]) i h ↔
      (∃ now f1 f2 key s1, op = .CreateApiKey now f1 f2 key ∧
        insertApiKey (run ops) now f1 key = .ok (i, s1) ∧ key.KeyHash = h) ∨
      (StoredLive ops i h ∧
        ¬ ∃ f, op = .DeleteApiKey f i ∧ (DeleteApiKey (run ops) f i).1 = none) := by
  constructor
  · rintro ⟨pre, now, f1, f2, key, post, s1, hops, hins, hkh, hdel⟩
    rcases snoc_eq_append_cons hops with ⟨rfl, rfl, rfl⟩ | ⟨post1, rfl, rfl⟩
    · exact Or.inl ⟨now, f1, f2, key, s1, rfl, hins, hkh⟩
    · refine Or.inr ⟨⟨pre, now, f1, f2, key, post1, s1, rfl, hins, hkh, ?_⟩, ?_⟩
      · intro mid f rest hpost
        apply hdel mid f (rest ++ [op])
        rw [hpost]
        simp
      · rintro ⟨f, rfl, hsucc⟩
        exact hdel post1 f [] rfl hsucc
  · rintro (⟨now, f1, f2, key, s1, rfl, hins, hkh⟩ |
      ⟨⟨pre, now, f1, f2, key, post, s1, rfl, hins, hkh, hdel⟩, hnd⟩)
    · refine ⟨ops, now, f1, f2, key, [], s1, rfl, hins, hkh, ?_⟩
      intro mid f rest hnil
      exact absurd hnil (by simp)
    · refine ⟨pre, now, f1, f2, key, post ++ [op], s1, by simp, hins, hkh, ?_⟩
      intro mid f rest hpost
      rcases List.eq_nil_or_concat rest with rfl | ⟨rest1, y, hy⟩
      · have := List.append_inj' hpost rfl
        simp only [List.cons.injEq, and_true] at this
        obtain ⟨rfl, rfl⟩ := this
        intro hsucc
        exact hnd ⟨f, rfl, hsucc⟩
      · rw [List.concat_eq_append] at hy
        subst hy
        have h2 : post ++ [op] = (mid ++ Op.DeleteApiKey f i :: rest1) ++ [y] := by
          rw [hpost]; simp
        have := List.append_inj' h2 rfl
        exact hdel mid f rest1 this.1

/-- The table holds `(i, h)` exactly when the history stored it and did not
delete it. -/
theorem HasKey_run_iff (ops : List Op) (i : Int) (h : String) :
    HasKey (run ops) i h ↔ StoredLive ops i h := by
  induction ops using List.reverseRecOn with
  | nil =>
    constructor
    · rintro ⟨r, hr, _⟩
      cases hr
    · rintro ⟨pre, now, f1, f2, key, post, s1, hops, _⟩
      exact absurd hops (by simp)
  | append_singleton l op ih =>
    rw [run_append, HasKey_apply, StoredLive_snoc, ih]

theorem hash_unique (s : Store) (hwf : WF s) (a b : ApiKeyRow) (ha : a ∈ s.api_keys)
    (hb : b ∈ s.api_keys) (h : a.key_hash = b.key_hash) : a = b :=
  List.inj_on_of_nodup_map hwf.2.2.2 ha hb h

theorem GetApiKeyByHash_ID (s : Store) (h : String) (k : ApiKey)
    (hk : GetApiKeyByHash s none h = .ok (some k)) : HasKey s k.ID h ∧ k.KeyHash = h := by
  unfold GetApiKeyByHash at hk
  cases hf : s.api_keys.find? (fun r => decide (r.key_hash = h)) with
  | none => simp [hf] at hk
  | some r =>
    simp only [hf, Except.ok.injEq, Option.some.injEq] at hk
    have hh : r.key_hash = h := by simpa using List.find?_some hf
    subst hk
    exact ⟨⟨r, List.mem_of_find?_eq_some hf, rfl, hh⟩, hh⟩

end store
namespace store

/-- C5. For every history `ops` of calls on a fresh store, with the medium
answering the lookup: `GetApiKeyByHash h` returns a record exactly when the
history stored a key record with hash `h` and no later `DeleteApiKey` of its
id succeeded, and returns the absent result otherwise; the record returned
is the stored one; `key_hash` is unique in the table. If a record with the
digest of `secret` was stored under id `i` and `DeleteApiKey i` then
succeeds, `GetApiKeyByHash` of that digest returns the absent result without
error and `validateApiKey secret` is false. -/
theorem C5_lookup_tracks_history (ops : List Op) :
    (∀ h, (∃ k, GetApiKeyByHash (run ops) none h = .ok (some k)) ↔
      ∃ i, StoredLive ops i h) ∧
    (∀ h, GetApiKeyByHash (run ops) none h = .ok none ↔ ¬ ∃ i, StoredLive ops i h) ∧
    (∀ h i, StoredLive ops i h →
      ∃ k, GetApiKeyByHash (run ops) none h = .ok (some k) ∧ k.ID = i ∧ k.KeyHash = h) ∧
    ((run ops).api_keys.map fun r => r.key_hash).Nodup ∧
    (∀ secret i f, StoredLive ops i (hex.EncodeToString (sha256.Sum256 (bytesOf secret))) →
      (DeleteApiKey (run ops) f i).1 = none →
      GetApiKeyByHash (run (ops ++ [.DeleteApiKey f i])) none (hex.EncodeToString (sha256.Sum256 (bytesOf secret))) = .ok none ∧
      ∀ f1, (middleware.validateApiKey secret
        (run (ops ++ [.DeleteApiKey f i])) f1).1 = false) := by
  have hwf := WF_run ops
  have hrow : ∀ h, (∃ r ∈ (run ops).api_keys, r.key_hash = h) ↔ ∃ i, StoredLive ops i h := by
    intro h
    constructor
    · rintro ⟨r, hr, hh⟩
      exact ⟨r.id, (HasKey_run_iff ops r.id h).mp ⟨r, hr, rfl, hh⟩⟩
    · rintro ⟨i, hi⟩
      obtain ⟨r, hr, _, hh⟩ := (HasKey_run_iff ops i h).mpr hi
      exact ⟨r, hr, hh⟩
  refine ⟨?_, ?_, ?_, hwf.2.2.2, ?_⟩
  · intro h
    rw [GetApiKeyByHash_some_iff, hrow]
  · intro h
    rw [GetApiKeyByHash_none_iff, ← hrow]
    push_neg
    rfl
  · intro h i hi
    obtain ⟨r, hr, hri, hrh⟩ := (HasKey_run_iff ops i h).mpr hi
    obtain ⟨k, hk⟩ := (GetApiKeyByHash_some_iff (run ops) h).mpr ⟨r, hr, hrh⟩
    obtain ⟨⟨r1, hr1, hr1i, hr1h⟩, hkh⟩ := GetApiKeyByHash_ID (run ops) h k hk
    have : r1 = r := hash_unique (run ops) hwf r1 r hr1 hr (hr1h.trans hrh.symm)
    subst this
    exact ⟨k, hk, hr1i.symm.trans hri, hkh⟩
  · intro secret i f hi hdel
    obtain ⟨r, hr, hri, hrh⟩ := (HasKey_run_iff ops i (hex.EncodeToString (sha256.Sum256 (bytesOf secret)))).mpr hi
    have hnone : GetApiKeyByHash (run (ops ++ [.DeleteApiKey f i])) none (hex.EncodeToString (sha256.Sum256 (bytesOf secret))) =
        .ok none := by
      rw [GetApiKeyByHash_none_iff]
      intro r1 hr1 hr1h
      have hk1 : HasKey (run (ops ++ [.DeleteApiKey f i])) r1.id (hex.EncodeToString (sha256.Sum256 (bytesOf secret))) :=
        ⟨r1, hr1, rfl, hr1h⟩
      rw [run_append, HasKey_apply] at hk1
      rcases hk1 with ⟨_, _, _, _, _, hop, _⟩ | ⟨⟨r2, hr2, hr2i, hr2h⟩, hnd⟩
      · cases hop
      · have : r2 = r := hash_unique (run ops) hwf r2 r hr2 hr (hr2h.trans hrh.symm)
        subst this
        apply hnd
        have hid : i = r1.id := hri.symm.trans hr2i
        subst hid
        exact ⟨f, rfl, hdel⟩
    refine ⟨hnone, ?_⟩
    intro f1
    cases f1 with
    | some msg => simp [middleware.validateApiKey, GetApiKeyByHash]
    | none => simp [middleware.validateApiKey, hnone]

/-- C5, on the sample history: the key stored for `sk-abc123` is deleted. -/
theorem C5_lookup_tracks_history_witness :
    StoredLive sample.history 1 (hex.EncodeToString (sha256.Sum256 (bytesOf "sk-abc123"))) ∧
      (DeleteApiKey (run sample.history) none 1).1 = none ∧
      GetApiKeyByHash (run (sample.history ++ [.DeleteApiKey none 1])) none
        (hex.EncodeToString (sha256.Sum256 (bytesOf "sk-abc123"))) = .ok none :=
  ⟨(HasKey_run_iff sample.history 1 (hex.EncodeToString (sha256.Sum256 (bytesOf "sk-abc123")))).mp (by decide),
   by decide,
   ((C5_lookup_tracks_history sample.history).2.2.2.2 "sk-abc123" 1 none
     ((HasKey_run_iff sample.history 1 (hex.EncodeToString (sha256.Sum256 (bytesOf "sk-abc123")))).mp (by decide))
     (by decide)).1⟩

end store
